import Mathlib

/-!
Verification of the pool-service-platform backend core.

The JavaScript source is embedded shallowly at the byte level:

* A JS string is modelled as its UTF-8 byte sequence, a value of type
  `List Nat` (each byte below 256 where it matters; hypotheses state this
  explicitly).  `Buffer.from(str)` and `buf.toString()` are then identities.
* JSON values (`Json` below) model the values produced by `JSON.parse`;
  numbers are modelled as integers (floating point is outside the model),
  and objects as ordered field lists, which is exactly the insertion-order
  semantics of JS objects.
* Platform functions used by the source (`JSON.stringify`, `JSON.parse`,
  `Buffer` base64 codecs, `crypto` SHA-256/HMAC) are modelled from their
  documented behaviour, since their code is not part of the repository.
* Fallible JS code (`try`/`catch`) is modelled with `Option`: `none` is the
  single caught-and-folded failure outcome.

Source files are referred to by their position in the repository snapshot:
part_000 (second half: backend index.js with JWT auth), part_001 (the Day 9
server), part_002 (Day 5 server), part_005 (serviceStore), part_006
(userStore).
-/

namespace Pool

/-- UTF-8 bytes of an ASCII Lean string literal, used to transcribe the string
literals of the JS source. -/
def asc (s : String) : List Nat := s.data.map Char.toNat

/-- A JSON value as produced by `JSON.parse` in the source.  Numbers are
restricted to integers (the tokens the source manipulates — ids, timestamps,
expiries — are all integral); object fields keep insertion order exactly as
JS objects do. -/
inductive Json where
  | null
  | bool (b : Bool)
  | num (n : Int)
  | str (s : List Nat)
  | arr (elems : List Json)
  | obj (fields : List (List Nat × Json))

mutual

/-- Decidable equality of JSON values (written out because `deriving` does
not handle the nested recursion through lists). -/
def decEqJ : (a b : Json) → Decidable (a = b)
  | .null, .null => .isTrue rfl
  | .null, .bool _ => .isFalse (fun h => Json.noConfusion h)
  | .null, .num _ => .isFalse (fun h => Json.noConfusion h)
  | .null, .str _ => .isFalse (fun h => Json.noConfusion h)
  | .null, .arr _ => .isFalse (fun h => Json.noConfusion h)
  | .null, .obj _ => .isFalse (fun h => Json.noConfusion h)
  | .bool _, .null => .isFalse (fun h => Json.noConfusion h)
  | .bool x, .bool y =>
    if h : x = y then .isTrue (by rw [h]) else .isFalse (fun e => h (Json.bool.inj e))
  | .bool _, .num _ => .isFalse (fun h => Json.noConfusion h)
  | .bool _, .str _ => .isFalse (fun h => Json.noConfusion h)
  | .bool _, .arr _ => .isFalse (fun h => Json.noConfusion h)
  | .bool _, .obj _ => .isFalse (fun h => Json.noConfusion h)
  | .num _, .null => .isFalse (fun h => Json.noConfusion h)
  | .num _, .bool _ => .isFalse (fun h => Json.noConfusion h)
  | .num x, .num y =>
    if h : x = y then .isTrue (by rw [h]) else .isFalse (fun e => h (Json.num.inj e))
  | .num _, .str _ => .isFalse (fun h => Json.noConfusion h)
  | .num _, .arr _ => .isFalse (fun h => Json.noConfusion h)
  | .num _, .obj _ => .isFalse (fun h => Json.noConfusion h)
  | .str _, .null => .isFalse (fun h => Json.noConfusion h)
  | .str _, .bool _ => .isFalse (fun h => Json.noConfusion h)
  | .str _, .num _ => .isFalse (fun h => Json.noConfusion h)
  | .str x, .str y =>
    if h : x = y then .isTrue (by rw [h]) else .isFalse (fun e => h (Json.str.inj e))
  | .str _, .arr _ => .isFalse (fun h => Json.noConfusion h)
  | .str _, .obj _ => .isFalse (fun h => Json.noConfusion h)
  | .arr _, .null => .isFalse (fun h => Json.noConfusion h)
  | .arr _, .bool _ => .isFalse (fun h => Json.noConfusion h)
  | .arr _, .num _ => .isFalse (fun h => Json.noConfusion h)
  | .arr _, .str _ => .isFalse (fun h => Json.noConfusion h)
  | .arr xs, .arr ys =>
    match decEqLJ xs ys with
    | .isTrue h => .isTrue (by rw [h])
    | .isFalse h => .isFalse (fun e => h (Json.arr.inj e))
  | .arr _, .obj _ => .isFalse (fun h => Json.noConfusion h)
  | .obj _, .null => .isFalse (fun h => Json.noConfusion h)
  | .obj _, .bool _ => .isFalse (fun h => Json.noConfusion h)
  | .obj _, .num _ => .isFalse (fun h => Json.noConfusion h)
  | .obj _, .str _ => .isFalse (fun h => Json.noConfusion h)
  | .obj _, .arr _ => .isFalse (fun h => Json.noConfusion h)
  | .obj xs, .obj ys =>
    match decEqFJ xs ys with
    | .isTrue h => .isTrue (by rw [h])
    | .isFalse h => .isFalse (fun e => h (Json.obj.inj e))

/-- Decidable equality of JSON value lists. -/
def decEqLJ : (a b : List Json) → Decidable (a = b)
  | [], [] => .isTrue rfl
  | [], _ :: _ => .isFalse (fun h => List.noConfusion h)
  | _ :: _, [] => .isFalse (fun h => List.noConfusion h)
  | x :: xs, y :: ys =>
    match decEqJ x y with
    | .isFalse h => .isFalse (fun e => h (List.cons.inj e).1)
    | .isTrue h1 =>
      match decEqLJ xs ys with
      | .isTrue h2 => .isTrue (by rw [h1, h2])
      | .isFalse h2 => .isFalse (fun e => h2 (List.cons.inj e).2)

/-- Decidable equality of JSON object field lists. -/
def decEqFJ : (a b : List (List Nat × Json)) → Decidable (a = b)
  | [], [] => .isTrue rfl
  | [], _ :: _ => .isFalse (fun h => List.noConfusion h)
  | _ :: _, [] => .isFalse (fun h => List.noConfusion h)
  | (k, v) :: xs, (l, w) :: ys =>
    if hk : k = l then
      match decEqJ v w with
      | .isFalse h => .isFalse (fun e => h (congrArg Prod.snd (List.cons.inj e).1))
      | .isTrue h1 =>
        match decEqFJ xs ys with
        | .isTrue h2 => .isTrue (by rw [hk, h1, h2])
        | .isFalse h2 => .isFalse (fun e => h2 (List.cons.inj e).2)
    else .isFalse (fun e => hk (congrArg Prod.fst (List.cons.inj e).1))

end

instance : DecidableEq Json := decEqJ

/-- Property lookup on an object field list (first match, as in JS objects,
whose keys are unique). -/
def objGet : List (List Nat × Json) → List Nat → Option Json
  | [], _ => none
  | (k, v) :: r, key => if k = key then some v else objGet r key

/-- Property assignment on an object field list: an existing key keeps its
position and gets the new value, a new key is appended.  This is the JS
semantics of both `o[k] = v` and spread-then-override object literals. -/
def objSet : List (List Nat × Json) → List Nat → Json → List (List Nat × Json)
  | [], key, val => [(key, val)]
  | (k, v) :: r, key, val =>
    if k = key then (k, val) :: r else (k, v) :: objSet r key val

/-- JS property access `v.k` for a parsed JSON value: `none` is `undefined`
(non-objects and absent keys).  Access on `null` throws in JS; callers model
that case separately. -/
def jsGet (v : Json) (key : List Nat) : Option Json :=
  match v with
  | .obj fs => objGet fs key
  | _ => none

/-- JS truthiness of a parsed JSON value: `0`, `false`, the empty string and
`null` are falsy, everything else (including empty arrays and objects) is
truthy. -/
def truthy : Json → Bool
  | .null => false
  | .bool b => b
  | .num n => n != 0
  | .str s => !s.isEmpty
  | .arr _ => true
  | .obj _ => true

/-- Bytes that JS treats as trimmable whitespace in the inputs we model. -/
def isWsB (c : Nat) : Bool := c = 32 || c = 9 || c = 10 || c = 13

def isDigitB (c : Nat) : Bool := 48 ≤ c && c ≤ 57

/-- Numeric value of a big-endian ASCII digit run. -/
def digitsVal (l : List Nat) : Nat := l.foldl (fun a c => a * 10 + (c - 48)) 0

/-- JS `Number(s)` for a string, restricted to optional-sign decimal integer
notation (`""` is 0; anything else the model cannot represent numerically is
NaN, i.e. `none`). -/
def strToNum (s : List Nat) : Option Int :=
  let t := ((s.dropWhile isWsB).reverse.dropWhile isWsB).reverse
  match t with
  | [] => some 0
  | 45 :: d =>
    if d ≠ [] ∧ d.all isDigitB then some (-(digitsVal d : Int)) else none
  | 43 :: d =>
    if d ≠ [] ∧ d.all isDigitB then some ((digitsVal d : Int)) else none
  | d =>
    if d.all isDigitB then some ((digitsVal d : Int)) else none

/-- JS `ToNumber` coercion of a parsed JSON value, `none` playing NaN.
Restricted to integral results; a singleton array coerces through its
element as JS does via `toString`. -/
def jsToNum : Json → Option Int
  | .num n => some n
  | .null => some 0
  | .bool b => some (if b then 1 else 0)
  | .str s => strToNum s
  | .arr [] => some 0
  | .arr [.num n] => some n
  | .arr _ => none
  | .obj _ => none

/-- The JS comparison `a > v` for a number `a` and a parsed JSON value `v`
(coercion to number; any comparison against NaN is false). -/
def jsGtNum (a : Int) (v : Json) : Bool :=
  match jsToNum v with
  | some n => decide (n < a)
  | none => false

/-- JS strict equality `===` between two independently parsed JSON values:
value equality on primitives, always false between distinct object or array
references (which separately parsed values are). -/
def jsEqStrict : Json → Json → Bool
  | .null, .null => true
  | .bool a, .bool b => a == b
  | .num a, .num b => a == b
  | .str a, .str b => a == b
  | _, _ => false

/-- `===` against a possibly-`undefined` property (`undefined === v` is
false for every parsed JSON `v`). -/
def jsEqOpt (o : Option Json) (v : Json) : Bool :=
  match o with
  | some w => jsEqStrict w v
  | none => false

/-! ### The JSON serializer

Models the platform `JSON.stringify`, in the two forms the source calls:
`JSON.stringify(x)` (compact) and `JSON.stringify(x, null, 2)` (two-space
indented, as in `serviceStore.js` and `userStore.js`).  The two forms differ
only in whitespace, so a single definition takes an indentation flag. -/

/-- Lowercase hex digit byte for a value below 16. -/
def hexDigitLower (d : Nat) : Nat := if d < 10 then 48 + d else 87 + d

/-- Decimal ASCII bytes of a natural number, most significant digit first. -/
def natDec (n : Nat) : List Nat :=
  if n = 0 then [48] else (Nat.digits 10 n).reverse.map (fun d => d + 48)

/-- Decimal ASCII bytes of an integer (JS number formatting for integers). -/
def intDec (n : Int) : List Nat :=
  if n < 0 then 45 :: natDec (-n).toNat else natDec n.toNat

/-- `JSON.stringify` escaping of one string byte: quote, backslash and the
named control escapes get two-byte escapes, other control bytes get a
`\u00XX` escape, everything else is emitted verbatim.  (Bytes of a multibyte
UTF-8 character are all at least 128, hence verbatim, so byte-level escaping
agrees with the character-level behaviour of the platform.) -/
def escByte (c : Nat) : List Nat :=
  if c = 34 then [92, 34]
  else if c = 92 then [92, 92]
  else if c = 8 then [92, 98]
  else if c = 12 then [92, 102]
  else if c = 10 then [92, 110]
  else if c = 13 then [92, 114]
  else if c = 9 then [92, 116]
  else if c < 32 then [92, 117, 48, 48, hexDigitLower (c / 16), hexDigitLower (c % 16)]
  else [c]

def escString (s : List Nat) : List Nat := s.flatMap escByte

/-- The newline-plus-indent run the indented form inserts before elements,
fields and closing brackets; empty in the compact form. -/
def nlGap (ind : Bool) (d : Nat) : List Nat :=
  if ind then 10 :: List.replicate (2 * d) 32 else []

/-- The name separator: `": "` when indented, `":"` when compact. -/
def colGap (ind : Bool) : List Nat := if ind then [58, 32] else [58]

mutual

/-- Byte rendering of a JSON value at nesting depth `d`; `ind` selects the
indented form. -/
def sByGap (ind : Bool) (d : Nat) : Json → List Nat
  | .null => [110, 117, 108, 108]
  | .bool true => [116, 114, 117, 101]
  | .bool false => [102, 97, 108, 115, 101]
  | .num n => intDec n
  | .str s => 34 :: escString s ++ [34]
  | .arr [] => [91, 93]
  | .arr (x :: xs) =>
    91 :: (sElems ind (d + 1) (x :: xs) ++ nlGap ind d ++ [93])
  | .obj [] => [123, 125]
  | .obj (f :: fs) =>
    123 :: (sFields ind (d + 1) (f :: fs) ++ nlGap ind d ++ [125])

/-- Rendering of nonempty array elements, comma separated, each preceded by
the gap of its depth. -/
def sElems (ind : Bool) (d : Nat) : List Json → List Nat
  | [] => []
  | [x] => nlGap ind d ++ sByGap ind d x
  | x :: y :: r =>
    nlGap ind d ++ sByGap ind d x ++ 44 :: sElems ind d (y :: r)

/-- Rendering of nonempty object fields. -/
def sFields (ind : Bool) (d : Nat) : List (List Nat × Json) → List Nat
  | [] => []
  | [(k, v)] => nlGap ind d ++ 34 :: (escString k ++ 34 :: (colGap ind ++ sByGap ind d v))
  | (k, v) :: g :: r =>
    nlGap ind d ++ 34 :: (escString k ++ 34 :: (colGap ind ++ sByGap ind d v))
      ++ 44 :: sFields ind d (g :: r)

end

/-- `JSON.stringify(x)`. -/
def jsonStringify (v : Json) : List Nat := sByGap false 0 v

/-- `JSON.stringify(x, null, 2)`. -/
def jsonStringify2 (v : Json) : List Nat := sByGap true 0 v

/-! ### The JSON parser

Models the platform `JSON.parse` on byte sequences, with a fuel argument for
totality.  Numbers are restricted to optional-sign integer literals (see the
header note on floating point); everything else follows the JSON grammar.
A failed parse is `none`, the single outcome the `catch` blocks of the
source observe. -/

def skipWs : List Nat → List Nat
  | [] => []
  | c :: r => if isWsB c then skipWs r else c :: r

/-- Value of one hex digit byte, if it is one. -/
def hexVal (c : Nat) : Option Nat :=
  if 48 ≤ c ∧ c ≤ 57 then some (c - 48)
  else if 97 ≤ c ∧ c ≤ 102 then some (c - 87)
  else if 65 ≤ c ∧ c ≤ 70 then some (c - 55)
  else none

/-- UTF-8 encoding of a code point up to 65535 (surrogate pairing is not
modelled; the renderer only emits escapes below 32). -/
def utf8Bytes (cp : Nat) : List Nat :=
  if cp < 128 then [cp]
  else if cp < 2048 then [192 + cp / 64, 128 + cp % 64]
  else [224 + cp / 4096, 128 + cp / 64 % 64, 128 + cp % 64]

/-- The byte denoted by a single-character string escape, if valid. -/
def escCharInv (e : Nat) : Option Nat :=
  if e = 34 then some 34
  else if e = 92 then some 92
  else if e = 47 then some 47
  else if e = 98 then some 8
  else if e = 102 then some 12
  else if e = 110 then some 10
  else if e = 114 then some 13
  else if e = 116 then some 9
  else none

/-- Parse a string body after the opening quote, returning the decoded bytes
and the remainder after the closing quote. -/
def parseStringBody : List Nat → Option (List Nat × List Nat)
  | [] => none
  | c :: r =>
    if c = 34 then some ([], r)
    else if c = 92 then
      match r with
      | [] => none
      | e :: r2 =>
        if e = 117 then
          match r2 with
          | h1 :: h2 :: h3 :: h4 :: r3 =>
            match hexVal h1, hexVal h2, hexVal h3, hexVal h4 with
            | some a, some b, some x, some y =>
              match parseStringBody r3 with
              | some (st, rest) =>
                some (utf8Bytes (a * 4096 + b * 256 + x * 16 + y) ++ st, rest)
              | none => none
            | _, _, _, _ => none
          | _ => none
        else
          match escCharInv e with
          | some ch =>
            match parseStringBody r2 with
            | some (st, rest) => some (ch :: st, rest)
            | none => none
          | none => none
    else if c < 32 then none
    else
      match parseStringBody r with
      | some (st, rest) => some (c :: st, rest)
      | none => none

/-- Parse a maximal nonempty digit run. -/
def parseNatTok (s : List Nat) : Option (Nat × List Nat) :=
  match s.takeWhile isDigitB with
  | [] => none
  | ds => some (digitsVal ds, s.dropWhile isDigitB)

/-- Parse an optional-sign integer literal. -/
def parseIntTok : List Nat → Option (Int × List Nat)
  | [] => none
  | c :: r =>
    if c = 45 then
      match parseNatTok r with
      | some (n, rest) => some (-(n : Int), rest)
      | none => none
    else
      match parseNatTok (c :: r) with
      | some (n, rest) => some ((n : Int), rest)
      | none => none

/-- `JSON.parse` builds each object by assigning fields in textual order, so
a duplicated key keeps its first position with its last value: fold the
parsed field list through property assignment. -/
def assembleFields (ps : List (List Nat × Json)) : List (List Nat × Json) :=
  ps.foldl (fun acc kv => objSet acc kv.1 kv.2) []

mutual

/-- Parse one JSON value after optional whitespace. -/
def parseValueF : Nat → List Nat → Option (Json × List Nat)
  | 0, _ => none
  | fuel + 1, s =>
    match skipWs s with
    | [] => none
    | c :: r =>
      if c = 110 then
        if r.take 3 = [117, 108, 108] then some (.null, r.drop 3) else none
      else if c = 116 then
        if r.take 3 = [114, 117, 101] then some (.bool true, r.drop 3) else none
      else if c = 102 then
        if r.take 4 = [97, 108, 115, 101] then some (.bool false, r.drop 4) else none
      else if c = 34 then
        match parseStringBody r with
        | some (st, rest) => some (.str st, rest)
        | none => none
      else if c = 91 then
        let r1 := skipWs r
        if r1.head? = some 93 then some (.arr [], r1.tail)
        else
          match parseElemsF fuel r1 with
          | some (xs, rest) => some (.arr xs, rest)
          | none => none
      else if c = 123 then
        let r1 := skipWs r
        if r1.head? = some 125 then some (.obj [], r1.tail)
        else
          match parseFieldsF fuel r1 with
          | some (ps, rest) => some (.obj (assembleFields ps), rest)
          | none => none
      else
        match parseIntTok (c :: r) with
        | some (n, rest) => some (.num n, rest)
        | none => none

/-- Parse one or more comma-separated values up to the closing bracket. -/
def parseElemsF : Nat → List Nat → Option (List Json × List Nat)
  | 0, _ => none
  | fuel + 1, s =>
    match parseValueF fuel s with
    | none => none
    | some (v, r) =>
      match skipWs r with
      | [] => none
      | c :: r2 =>
        if c = 44 then
          match parseElemsF fuel r2 with
          | some (vs, rest) => some (v :: vs, rest)
          | none => none
        else if c = 93 then some ([v], r2)
        else none

/-- Parse one or more comma-separated key/value pairs up to the closing
brace, returned in textual order. -/
def parseFieldsF : Nat → List Nat → Option (List (List Nat × Json) × List Nat)
  | 0, _ => none
  | fuel + 1, s =>
    match skipWs s with
    | [] => none
    | c :: r =>
      if c = 34 then
        match parseStringBody r with
        | none => none
        | some (k, r1) =>
          match skipWs r1 with
          | [] => none
          | c2 :: r2 =>
            if c2 = 58 then
              match parseValueF fuel r2 with
              | none => none
              | some (v, r3) =>
                match skipWs r3 with
                | [] => none
                | c3 :: r4 =>
                  if c3 = 44 then
                    match parseFieldsF fuel r4 with
                    | some (ps, rest) => some ((k, v) :: ps, rest)
                    | none => none
                  else if c3 = 125 then some ([(k, v)], r4)
                  else none
            else none
      else none

end

/-- `JSON.parse`: parse a complete document, allowing surrounding whitespace
and nothing else.  The fuel is sufficient for every input (each unit of
nesting consumes at least one input byte; the round-trip theorems below
instantiate this through the `jsize` bound). -/
def parseJson (s : List Nat) : Option Json :=
  match parseValueF (2 * s.length + 2) s with
  | some (v, rest) => if skipWs rest = [] then some v else none
  | none => none

mutual

/-- Fuel needed by the parser to rebuild a value (one unit per value plus
one per element/field step). -/
def jsize : Json → Nat
  | .null => 1
  | .bool _ => 1
  | .num _ => 1
  | .str _ => 1
  | .arr xs => 1 + jsizeL xs
  | .obj fs => 1 + jsizeF fs

def jsizeL : List Json → Nat
  | [] => 0
  | x :: r => 1 + jsize x + jsizeL r

def jsizeF : List (List Nat × Json) → Nat
  | [] => 0
  | (_, v) :: r => 1 + jsize v + jsizeF r

end

/-- Every byte below 256 (true of the UTF-8 bytes of any JS string). -/
def bytesOK (s : List Nat) : Bool := s.all (fun b => decide (b < 256))

/-- The key `k` does not occur in the field list. -/
def keyNotIn (k : List Nat) : List (List Nat × Json) → Bool
  | [] => true
  | (l, _) :: r => if k = l then false else keyNotIn k r

mutual

/-- Well-formedness of a value that came from an actual JS object graph:
string bytes below 256 and object keys unique. -/
def jsonOK : Json → Bool
  | .null => true
  | .bool _ => true
  | .num _ => true
  | .str s => bytesOK s
  | .arr xs => jsonOKL xs
  | .obj fs => jsonOKF fs

def jsonOKL : List Json → Bool
  | [] => true
  | x :: r => jsonOK x && jsonOKL r

def jsonOKF : List (List Nat × Json) → Bool
  | [] => true
  | (k, v) :: r => bytesOK k && keyNotIn k r && jsonOK v && jsonOKF r

end

/-! ### SHA-256 and HMAC

Model of the platform `crypto` module used by the source
(`createHmac("sha256", secret)` and `createHash("sha256")`), implemented
from FIPS 180-4 over byte lists, with 32-bit words as naturals reduced
modulo `2 ^ 32`. -/

def M32 : Nat := 4294967296

def add32 (a b : Nat) : Nat := (a + b) % M32

def rotr32 (n x : Nat) : Nat := ((x >>> n) ||| (x <<< (32 - n))) % M32

def chB (x y z : Nat) : Nat := Nat.xor (Nat.land x y) (Nat.land (Nat.xor x (M32 - 1)) z)

def majB (x y z : Nat) : Nat :=
  Nat.xor (Nat.xor (Nat.land x y) (Nat.land x z)) (Nat.land y z)

def bsig0 (x : Nat) : Nat := Nat.xor (Nat.xor (rotr32 2 x) (rotr32 13 x)) (rotr32 22 x)

def bsig1 (x : Nat) : Nat := Nat.xor (Nat.xor (rotr32 6 x) (rotr32 11 x)) (rotr32 25 x)

def ssig0 (x : Nat) : Nat := Nat.xor (Nat.xor (rotr32 7 x) (rotr32 18 x)) (x >>> 3)

def ssig1 (x : Nat) : Nat := Nat.xor (Nat.xor (rotr32 17 x) (rotr32 19 x)) (x >>> 10)

/-- The 64 SHA-256 round constants. -/
def shaK : List Nat :=
  [1116352408, 1899447441, 3049323471, 3921009573, 961987163, 1508970993, 2453635748, 2870763221,
   3624381080, 310598401, 607225278, 1426881987, 1925078388, 2162078206, 2614888103, 3248222580,
   3835390401, 4022224774, 264347078, 604807628, 770255983, 1249150122, 1555081692, 1996064986,
   2554220882, 2821834349, 2952996808, 3210313671, 3336571891, 3584528711, 113926993, 338241895,
   666307205, 773529912, 1294757372, 1396182291, 1695183700, 1986661051, 2177026350, 2456956037,
   2730485921, 2820302411, 3259730800, 3345764771, 3516065817, 3600352804, 4094571909, 275423344,
   430227734, 506948616, 659060556, 883997877, 958139571, 1322822218, 1537002063, 1747873779,
   1955562222, 2024104815, 2227730452, 2361852424, 2428436474, 2756734187, 3204031479, 3329325298]

/-- Big-endian 32-bit words from a byte list (length a multiple of 4 in every
use). -/
def toWords : List Nat → List Nat
  | b1 :: b2 :: b3 :: b4 :: r => (((b1 * 256 + b2) * 256 + b3) * 256 + b4) :: toWords r
  | _ => []

/-- Extend the 16 message words to 64 by `t` more steps. -/
def extendW : Nat → List Nat → List Nat
  | 0, w => w
  | t + 1, w =>
    let n := w.length
    let x := add32 (add32 (ssig1 (w.getD (n - 2) 0)) (w.getD (n - 7) 0))
                   (add32 (ssig0 (w.getD (n - 15) 0)) (w.getD (n - 16) 0))
    extendW t (w ++ [x])

/-- Working state of the compression function. -/
structure Sha8 where
  a : Nat
  b : Nat
  c : Nat
  d : Nat
  e : Nat
  f : Nat
  g : Nat
  h : Nat

def shaStep (st : Sha8) (k w : Nat) : Sha8 :=
  let t1 := add32 st.h (add32 (bsig1 st.e) (add32 (chB st.e st.f st.g) (add32 k w)))
  let t2 := add32 (bsig0 st.a) (majB st.a st.b st.c)
  ⟨add32 t1 t2, st.a, st.b, st.c, add32 st.d t1, st.e, st.f, st.g⟩

def compressBlock (hs : Sha8) (block : List Nat) : Sha8 :=
  let ws := extendW 48 (toWords block)
  let st := (shaK.zip ws).foldl (fun st kw => shaStep st kw.1 kw.2) hs
  ⟨add32 hs.a st.a, add32 hs.b st.b, add32 hs.c st.c, add32 hs.d st.d,
   add32 hs.e st.e, add32 hs.f st.f, add32 hs.g st.g, add32 hs.h st.h⟩

/-- Big-endian eight-byte encoding of the bit length. -/
def be8 (n : Nat) : List Nat :=
  [n / 2 ^ 56 % 256, n / 2 ^ 48 % 256, n / 2 ^ 40 % 256, n / 2 ^ 32 % 256,
   n / 2 ^ 24 % 256, n / 2 ^ 16 % 256, n / 2 ^ 8 % 256, n % 256]

def chunks64 : List Nat → List (List Nat)
  | [] => []
  | c :: r => ((c :: r).take 64) :: chunks64 ((c :: r).drop 64)
termination_by l => l.length
decreasing_by simp [List.length_drop]; omega

def wordsToBytes (ws : List Nat) : List Nat :=
  ws.flatMap (fun w => [w / 2 ^ 24 % 256, w / 2 ^ 16 % 256, w / 2 ^ 8 % 256, w % 256])

/-- SHA-256 of a byte list. -/
def sha256 (msg : List Nat) : List Nat :=
  let len := msg.length
  let padded := msg ++ 128 :: List.replicate ((119 - len % 64) % 64) 0 ++ be8 (8 * len)
  let start : Sha8 := ⟨1779033703, 3144134277, 1013904242, 2773480762,
                       1359893119, 2600822924, 528734635, 1541459225⟩
  let hh := (chunks64 padded).foldl compressBlock start
  wordsToBytes [hh.a, hh.b, hh.c, hh.d, hh.e, hh.f, hh.g, hh.h]

/-- HMAC-SHA256 (RFC 2104), the `crypto.createHmac("sha256", key)` model. -/
def hmacSha256 (key msg : List Nat) : List Nat :=
  let k0 := if 64 < key.length then sha256 key else key
  let kp := k0 ++ List.replicate (64 - k0.length) 0
  sha256 ((kp.map (fun b => Nat.xor b 92)) ++ sha256 ((kp.map (fun b => Nat.xor b 54)) ++ msg))

/-- Lowercase hex rendering of a digest, the `digest("hex")` model. -/
def hexDigest (bytes : List Nat) : List Nat :=
  bytes.flatMap (fun b => [hexDigitLower (b / 16 % 16), hexDigitLower (b % 16)])

/-! ### Base64 and the URL-safe variant

Models `Buffer.from(x).toString("base64")` and the lenient
`Buffer.from(s, "base64")` decoder (which ignores bytes outside the base64
alphabet and the padding), plus the replace chains the source applies. -/

/-- The standard base64 alphabet as ASCII bytes. -/
def b64chars : List Nat :=
  asc "ABCDEFGHIJKLMNOPQRSTUVWXYZabcdefghijklmnopqrstuvwxyz0123456789+/"

def encB64 (n : Nat) : Nat := b64chars.getD n 65

def isB64 (c : Nat) : Bool := b64chars.contains c

def decB64 (c : Nat) : Nat := b64chars.indexOf c

/-- Standard padded base64 of a byte list. -/
def nodeBase64 : List Nat → List Nat
  | [] => []
  | [b1] => [encB64 (b1 / 4), encB64 (b1 % 4 * 16), 61, 61]
  | [b1, b2] => [encB64 (b1 / 4), encB64 (b1 % 4 * 16 + b2 / 16), encB64 (b2 % 16 * 4), 61]
  | b1 :: b2 :: b3 :: r =>
    encB64 (b1 / 4) :: encB64 (b1 % 4 * 16 + b2 / 16) ::
      encB64 (b2 % 16 * 4 + b3 / 64) :: encB64 (b3 % 64) :: nodeBase64 r

/-- Decode a cleaned base64 character sequence in groups of four, with the
standard final-group truncation. -/
def decGroups : List Nat → List Nat
  | c0 :: c1 :: c2 :: c3 :: r =>
    (decB64 c0 * 4 + decB64 c1 / 16) :: (decB64 c1 % 16 * 16 + decB64 c2 / 4) ::
      (decB64 c2 % 4 * 64 + decB64 c3) :: decGroups r
  | [c0, c1, c2] => [decB64 c0 * 4 + decB64 c1 / 16, decB64 c1 % 16 * 16 + decB64 c2 / 4]
  | [c0, c1] => [decB64 c0 * 4 + decB64 c1 / 16]
  | _ => []

def nodeBase64Decode (s : List Nat) : List Nat := decGroups (s.filter isB64)

/-- The `base64urlEncode` helper of the source (part_001 lines 93-95 and
part_000 lines 237-239): standard base64 with `=` removed, `+` replaced by
`-` and `/` by `_`; the source applies the same replace chain to the HMAC
digest when signing. -/
def urlSafeChar (c : Nat) : Nat := if c = 43 then 45 else if c = 47 then 95 else c

def base64urlEncode (s : List Nat) : List Nat :=
  ((nodeBase64 s).filter (fun c => decide (c ≠ 61))).map urlSafeChar

/-- The `base64urlDecode` helper of the source (part_001 lines 97-102):
reverse the replacements, restore padding to a multiple of four, and decode
leniently. -/
def unUrlChar (c : Nat) : Nat := if c = 45 then 43 else if c = 95 then 47 else c

def base64urlDecode (s : List Nat) : List Nat :=
  let t := s.map unUrlChar
  nodeBase64Decode (t ++ List.replicate ((4 - t.length % 4) % 4) 61)

/-! ### The token service

`generateToken` and `verifyToken` from part_000 lines 247-277 (identical in
part_001 lines 113-151).  The module-level `JWT_SECRET` and `Date.now()`
are passed as parameters `secret` and `nowMs`, and the payload object as a
field list. -/

/-- The fixed JWT header object of `generateToken`. -/
def jwtHeader : List (List Nat × Json) :=
  [(asc "alg", .str (asc "HS256")), (asc "typ", .str (asc "JWT"))]

/-- The expiry chosen by `generateToken`: `payload.exp || issuedAt + 60 * 60`
(so a falsy `exp`, including 0, selects the default). -/
def expiryJson (payload : List (List Nat × Json)) (issuedAt : Nat) : Json :=
  match objGet payload (asc "exp") with
  | some v => if truthy v then v else .num ((issuedAt : Int) + 3600)
  | none => .num ((issuedAt : Int) + 3600)

/-- `{ ...payload, iat: issuedAt, exp: expiry }`. -/
def tokenPayloadOf (payload : List (List Nat × Json)) (issuedAt : Nat) :
    List (List Nat × Json) :=
  objSet (objSet payload (asc "iat") (.num (issuedAt : Int))) (asc "exp")
    (expiryJson payload issuedAt)

/-- `generateToken` (part_000 lines 247-258). -/
def generateToken (secret : List Nat) (nowMs : Nat)
    (payload : List (List Nat × Json)) : List Nat :=
  let issuedAt := nowMs / 1000
  let headerEncoded := base64urlEncode (jsonStringify (.obj jwtHeader))
  let payloadEncoded := base64urlEncode (jsonStringify (.obj (tokenPayloadOf payload issuedAt)))
  let data := headerEncoded ++ 46 :: payloadEncoded
  data ++ 46 :: base64urlEncode (hmacSha256 secret data)

/-- JS `String.prototype.split(".")`: every occurrence splits, empty pieces
are kept, the empty string yields one empty piece. -/
def splitDot : List Nat → List (List Nat)
  | [] => [[]]
  | c :: r =>
    let rest := splitDot r
    if c = 46 then [] :: rest else (c :: rest.headD []) :: rest.tail

/-- `verifyToken` (part_000 lines 260-277): exactly three segments, signature
recomputed over the first two and compared byte for byte, then the payload
decoded inside the `try`.  A `null` payload makes the untyped `payload.exp`
access throw, which the `catch` folds into the invalid outcome, hence the
explicit `null` case; the expiry test `payload.exp && now > payload.exp`
skips falsy `exp` values. -/
def verifyToken (secret : List Nat) (nowMs : Nat) (token : List Nat) : Option Json :=
  match splitDot token with
  | [headerEncoded, payloadEncoded, sg] =>
    let data := headerEncoded ++ 46 :: payloadEncoded
    if base64urlEncode (hmacSha256 secret data) = sg then
      match parseJson (base64urlDecode payloadEncoded) with
      | some payload =>
        if payload = .null then none
        else
          match jsGet payload (asc "exp") with
          | some v =>
            if truthy v && jsGtNum ((nowMs / 1000 : Nat) : Int) v then none
            else some payload
          | none => some payload
      | none => none
    else none
  | _ => none

/-! ### The record store

`getServices`/`saveServices` (part_005 lines 27-45) and `getUsers`/
`saveUsers` (part_006 lines 15-26).  The backing file is modelled as
`Option (List Nat)`: `none` when `readFileSync` throws (missing or
unreadable file), otherwise the byte content. -/

/-- `getServices`: read and parse the backing file, with every failure
folded into the empty collection. -/
def getServices (file : Option (List Nat)) : Json :=
  match file with
  | none => .arr []
  | some data =>
    match parseJson data with
    | some v => v
    | none => .arr []

/-- `saveServices`: overwrite the file with the indented rendering. -/
def saveServices (services : List Json) : List Nat := jsonStringify2 (.arr services)

/-- `getUsers`, same contract over the users file. -/
def getUsers (file : Option (List Nat)) : Json :=
  match file with
  | none => .arr []
  | some data =>
    match parseJson data with
    | some v => v
    | none => .arr []

/-- `saveUsers`. -/
def saveUsers (users : List Json) : List Nat := jsonStringify2 (.arr users)

/-! ### Request handlers

The handlers the claims mention, modelled after body assembly and URL
parsing: each takes the raw request body bytes and the current backing file
and returns the HTTP status, the backing file afterwards, and the response
record if one is serialized from a value.  Any exception inside the
source's `try` (non-JSON body, property access on `null`, array methods on
non-arrays, hashing a non-string) lands in its `catch`, which answers 400,
so those paths all produce status 400 here. -/

structure ApiResult where
  status : Nat
  file : Option (List Nat)
  body : Option Json
deriving DecidableEq

/-- JS property assignment `v.k = x` observed through `JSON.stringify`: on an
object it sets the field; on `null` it throws (`none`); on primitives it is
silently ignored and on arrays the added property is dropped again by
serialization, so both leave the observable value unchanged. -/
def jsSetProp (v : Json) (key : List Nat) (val : Json) : Option Json :=
  match v with
  | .obj fs => some (.obj (objSet fs key val))
  | .null => none
  | other => some other

/-- `users.some(u => u.username === username)`: `none` when the callback
throws (a `null` element), otherwise the boolean. -/
def someUsernameEq : List Json → Json → Option Bool
  | [], _ => some false
  | .null :: _, _ => none
  | r :: rest, uv =>
    if jsEqOpt (jsGet r (asc "username")) uv then some true else someUsernameEq rest uv

/-- `services.findIndex(s => s.id === id)` with explicit index accumulator;
outer `none` when the callback throws, inner `none` for the `-1` result. -/
def findIdxByIdAux : List Json → Int → Nat → Option (Option Nat)
  | [], _, _ => some none
  | .null :: _, _, _ => none
  | r :: rest, idNum, i =>
    if jsEqOpt (jsGet r (asc "id")) (.num idNum) then some (some i)
    else findIdxByIdAux rest idNum (i + 1)

def findIdxById (l : List Json) (idNum : Int) : Option (Option Nat) :=
  findIdxByIdAux l idNum 0

/-- The `POST /register` handler (part_000 lines 318-346): parse the body,
require truthy `username` and `password` (400 otherwise), answer 409 on an
existing username without touching the file, otherwise store the new user
with the hex SHA-256 of the password and answer 201. -/
def register (reqBody : List Nat) (file : Option (List Nat)) : ApiResult :=
  match parseJson reqBody with
  | none => ⟨400, file, none⟩
  | some b =>
    if b = .null then ⟨400, file, none⟩
    else
      match jsGet b (asc "username"), jsGet b (asc "password") with
      | some uv, some pv =>
        if truthy uv && truthy pv then
          match getUsers file with
          | .arr users =>
            match someUsernameEq users uv with
            | none => ⟨400, file, none⟩
            | some true => ⟨409, file, none⟩
            | some false =>
              match pv with
              | .str pw =>
                ⟨201, some (saveUsers (users ++
                  [.obj [(asc "username", uv),
                         (asc "passwordHash", .str (hexDigest (sha256 pw)))]])), none⟩
              | _ => ⟨400, file, none⟩
          | _ => ⟨400, file, none⟩
        else ⟨400, file, none⟩
      | _, _ => ⟨400, file, none⟩

/-- The `POST /services` handler (part_000 lines 431-454, part_002 lines
109-132): parse the body, overwrite its `id` with `Date.now()`, append to
the loaded collection and save. -/
def createService (nowMs : Int) (reqBody : List Nat) (file : Option (List Nat)) : ApiResult :=
  match parseJson reqBody with
  | none => ⟨400, file, none⟩
  | some b =>
    match jsSetProp b (asc "id") (.num nowMs) with
    | none => ⟨400, file, none⟩
    | some b1 =>
      match getServices file with
      | .arr l => ⟨201, some (saveServices (l ++ [b1])), some b1⟩
      | _ => ⟨400, file, none⟩

/-- The `PUT /services/:id` handler (part_000 lines 455-486, part_002 lines
135-164): parse the body, locate the record by the URL id (404 when absent),
force the body's `id` back to the URL id and replace the record in place. -/
def updateService (idNum : Int) (reqBody : List Nat) (file : Option (List Nat)) : ApiResult :=
  match parseJson reqBody with
  | none => ⟨400, file, none⟩
  | some b =>
    match getServices file with
    | .arr l =>
      match findIdxById l idNum with
      | none => ⟨400, file, none⟩
      | some none => ⟨404, file, none⟩
      | some (some i) =>
        match jsSetProp b (asc "id") (.num idNum) with
        | none => ⟨400, file, none⟩
        | some b1 => ⟨200, some (saveServices (l.set i b1)), some b1⟩
    | _ => ⟨400, file, none⟩

/-! ### Lemmas about object field access and update -/

theorem objGet_objSet_self (o : List (List Nat × Json)) (k : List Nat) (v : Json) :
    objGet (objSet o k v) k = some v := by
  induction o with
  | nil => simp [objSet, objGet]
  | cons p r ih =>
    obtain ⟨l, w⟩ := p
    by_cases h : l = k
    · simp [objSet, objGet, h]
    · simp [objSet, objGet, h, ih]

theorem objGet_objSet_other (o : List (List Nat × Json)) (k q : List Nat) (v : Json)
    (h : q ≠ k) : objGet (objSet o k v) q = objGet o q := by
  have hkq : ¬ k = q := fun e => h e.symm
  induction o with
  | nil => simp [objSet, objGet, hkq]
  | cons p r ih =>
    obtain ⟨l, w⟩ := p
    by_cases hl : l = k
    · subst hl
      simp [objSet, objGet, hkq]
    · by_cases hq : l = q <;> simp [objSet, objGet, hl, hq, h, ih]

/-- Setting an absent key appends the field. -/
theorem objSet_fresh (o : List (List Nat × Json)) (k : List Nat) (v : Json)
    (h : keyNotIn k o = true) : objSet o k v = o ++ [(k, v)] := by
  induction o with
  | nil => simp [objSet]
  | cons p r ih =>
    obtain ⟨l, w⟩ := p
    simp only [keyNotIn] at h
    by_cases hkl : k = l
    · rw [if_pos hkl] at h
      exact absurd h (by simp)
    · rw [if_neg hkl] at h
      have hlk : ¬ l = k := fun e => hkl e.symm
      simp [objSet, hlk, ih h]

/-! ### Lemmas about `splitDot` -/

theorem splitDot_ne_nil (s : List Nat) : splitDot s ≠ [] := by
  cases s with
  | nil => simp [splitDot]
  | cons c r => by_cases h : c = 46 <;> simp [splitDot, h]

theorem splitDot_dotfree_append (a : List Nat) (h : ∀ b ∈ a, b ≠ 46) (r : List Nat) :
    splitDot (a ++ r) = (a ++ (splitDot r).headD []) :: (splitDot r).tail := by
  induction a with
  | nil =>
    rcases he : splitDot r with _ | ⟨x, t⟩
    · exact absurd he (splitDot_ne_nil r)
    · simp [he]
  | cons c a2 ih =>
    have hc : c ≠ 46 := h c (by simp)
    have h2 : ∀ b ∈ a2, b ≠ 46 := fun b hb => h b (by simp [hb])
    simp only [List.cons_append, splitDot, if_neg hc, List.append_eq]
    rw [ih h2]
    simp

theorem splitDot_exact (a : List Nat) (h : ∀ b ∈ a, b ≠ 46) : splitDot a = [a] := by
  have := splitDot_dotfree_append a h []
  simpa [splitDot] using this

theorem splitDot_seg (a r : List Nat) (h : ∀ b ∈ a, b ≠ 46) :
    splitDot (a ++ 46 :: r) = a :: splitDot r := by
  rw [splitDot_dotfree_append a h (46 :: r)]
  simp [splitDot]

theorem splitDot_three (h p s : List Nat)
    (hh : ∀ b ∈ h, b ≠ 46) (hp : ∀ b ∈ p, b ≠ 46) (hs : ∀ b ∈ s, b ≠ 46) :
    splitDot (h ++ 46 :: (p ++ 46 :: s)) = [h, p, s] := by
  rw [splitDot_seg h _ hh, splitDot_seg p _ hp, splitDot_exact s hs]

/-! ### The base64url round-trip -/

theorem decB64_encB64 : ∀ n, n < 64 → decB64 (encB64 n) = n := by decide

theorem isB64_encB64 : ∀ n, n < 64 → isB64 (encB64 n) = true := by decide

theorem encB64_oob (n : Nat) (h : 64 ≤ n) : encB64 n = 65 := by
  have hlen : b64chars.length ≤ n := by
    have he : b64chars.length = 64 := by decide
    omega
  simp [encB64, List.getD, List.getElem?_eq_none hlen]

theorem encB64_ne_61 (n : Nat) : encB64 n ≠ 61 := by
  by_cases h : n < 64
  · revert h
    revert n
    decide
  · rw [encB64_oob n (by omega)]
    decide

theorem unUrl_url_b64 : ∀ n, n < 64 → unUrlChar (urlSafeChar (encB64 n)) = encB64 n := by
  decide

theorem url_b64_ne_46 (n : Nat) : urlSafeChar (encB64 n) ≠ 46 := by
  by_cases h : n < 64
  · revert h
    revert n
    decide
  · rw [encB64_oob n (by omega)]
    decide

/-- Every byte of a padded base64 rendering is padding or an alphabet image
of a six-bit value. -/
theorem mem_nodeBase64 : ∀ (x : List Nat), (∀ b ∈ x, b < 256) →
    ∀ c ∈ nodeBase64 x, c = 61 ∨ ∃ n, n < 64 ∧ c = encB64 n
  | [], _ => by simp [nodeBase64]
  | [b1], hx => by
    have h1 : b1 < 256 := hx b1 (by simp)
    intro c hc
    simp only [nodeBase64, List.mem_cons, List.not_mem_nil, or_false] at hc
    rcases hc with rfl | rfl | rfl | rfl
    · exact Or.inr ⟨b1 / 4, by omega, rfl⟩
    · exact Or.inr ⟨b1 % 4 * 16, by omega, rfl⟩
    · exact Or.inl rfl
    · exact Or.inl rfl
  | [b1, b2], hx => by
    have h1 : b1 < 256 := hx b1 (by simp)
    have h2 : b2 < 256 := hx b2 (by simp)
    intro c hc
    simp only [nodeBase64, List.mem_cons, List.not_mem_nil, or_false] at hc
    rcases hc with rfl | rfl | rfl | rfl
    · exact Or.inr ⟨b1 / 4, by omega, rfl⟩
    · exact Or.inr ⟨b1 % 4 * 16 + b2 / 16, by omega, rfl⟩
    · exact Or.inr ⟨b2 % 16 * 4, by omega, rfl⟩
    · exact Or.inl rfl
  | b1 :: b2 :: b3 :: r, hx => by
    have h1 : b1 < 256 := hx b1 (by simp)
    have h2 : b2 < 256 := hx b2 (by simp)
    have h3 : b3 < 256 := hx b3 (by simp)
    have hr : ∀ b ∈ r, b < 256 := fun b hb => hx b (by simp [hb])
    intro c hc
    simp only [nodeBase64, List.mem_cons] at hc
    rcases hc with rfl | rfl | rfl | rfl | hc
    · exact Or.inr ⟨b1 / 4, by omega, rfl⟩
    · exact Or.inr ⟨b1 % 4 * 16 + b2 / 16, by omega, rfl⟩
    · exact Or.inr ⟨b2 % 16 * 4 + b3 / 64, by omega, rfl⟩
    · exact Or.inr ⟨b3 % 64, by omega, rfl⟩
    · exact mem_nodeBase64 r hr c hc

/-- Decoding the unpadded groups of a rendering recovers the bytes. -/
theorem decGroups_strip : ∀ (x : List Nat), (∀ b ∈ x, b < 256) →
    decGroups ((nodeBase64 x).filter (fun c => decide (c ≠ 61))) = x
  | [], _ => by simp [nodeBase64, decGroups]
  | [b1], hx => by
    have h1 : b1 < 256 := hx b1 (by simp)
    have e0 := encB64_ne_61 (b1 / 4)
    have e1 := encB64_ne_61 (b1 % 4 * 16)
    simp only [nodeBase64, List.filter_cons, decide_eq_true_eq, e0, e1]
    simp only [if_pos e0, if_pos e1]
    norm_num [List.filter_cons, decGroups]
    rw [decB64_encB64 _ (by omega), decB64_encB64 _ (by omega)]
    omega
  | [b1, b2], hx => by
    have h1 : b1 < 256 := hx b1 (by simp)
    have h2 : b2 < 256 := hx b2 (by simp)
    have e0 := encB64_ne_61 (b1 / 4)
    have e1 := encB64_ne_61 (b1 % 4 * 16 + b2 / 16)
    have e2 := encB64_ne_61 (b2 % 16 * 4)
    simp only [nodeBase64, List.filter_cons, decide_eq_true_eq]
    simp only [if_pos e0, if_pos e1, if_pos e2]
    norm_num [List.filter_cons, decGroups]
    rw [decB64_encB64 _ (by omega), decB64_encB64 _ (by omega), decB64_encB64 _ (by omega)]
    constructor
    · omega
    · omega
  | b1 :: b2 :: b3 :: r, hx => by
    have h1 : b1 < 256 := hx b1 (by simp)
    have h2 : b2 < 256 := hx b2 (by simp)
    have h3 : b3 < 256 := hx b3 (by simp)
    have hr : ∀ b ∈ r, b < 256 := fun b hb => hx b (by simp [hb])
    have e0 := encB64_ne_61 (b1 / 4)
    have e1 := encB64_ne_61 (b1 % 4 * 16 + b2 / 16)
    have e2 := encB64_ne_61 (b2 % 16 * 4 + b3 / 64)
    have e3 := encB64_ne_61 (b3 % 64)
    simp only [nodeBase64, List.filter_cons, decide_eq_true_eq]
    simp only [if_pos e0, if_pos e1, if_pos e2, if_pos e3]
    rw [decGroups]
    rw [decB64_encB64 _ (by omega), decB64_encB64 _ (by omega),
        decB64_encB64 _ (by omega), decB64_encB64 _ (by omega)]
    rw [decGroups_strip r hr]
    simp only [List.cons.injEq]
    exact ⟨by omega, by omega, by omega, trivial⟩

/-- The complete codec round-trip used on the token payload segment. -/
theorem base64url_roundtrip (x : List Nat) (hx : ∀ b ∈ x, b < 256) :
    base64urlDecode (base64urlEncode x) = x := by
  set q := (nodeBase64 x).filter (fun c => decide (c ≠ 61)) with hq
  have hmem : ∀ c ∈ q, ∃ n, n < 64 ∧ c = encB64 n := by
    intro c hc
    rw [hq, List.mem_filter] at hc
    rcases mem_nodeBase64 x hx c hc.1 with h61 | hn
    · simp [h61] at hc
    · exact hn
  have hmapfix : q.map (fun c => unUrlChar (urlSafeChar c)) = q := by
    rw [show q.map (fun c => unUrlChar (urlSafeChar c)) = q.map id from
      List.map_congr_left (fun c hc => by
        obtain ⟨n, hn, rfl⟩ := hmem c hc
        exact unUrl_url_b64 n hn)]
    exact List.map_id q
  have hfilterfix : q.filter isB64 = q := by
    rw [List.filter_eq_self]
    intro c hc
    obtain ⟨n, hn, rfl⟩ := hmem c hc
    exact isB64_encB64 n hn
  simp only [base64urlEncode, base64urlDecode, ← hq]
  rw [List.map_map]
  rw [show (unUrlChar ∘ urlSafeChar) = (fun c => unUrlChar (urlSafeChar c)) from rfl,
    hmapfix]
  simp only [nodeBase64Decode, List.filter_append]
  rw [hfilterfix]
  have h61f : List.filter isB64 (List.replicate ((4 - q.length % 4) % 4) 61) = [] := by
    rw [List.filter_eq_nil_iff]
    intro c hc
    rw [List.eq_of_mem_replicate hc]
    decide
  rw [h61f, List.append_nil]
  exact decGroups_strip x hx

/-! ### Whitespace and delimiter lemmas for the parser -/

theorem skipWs_ws_front (w t : List Nat) (h : ∀ b ∈ w, isWsB b = true) :
    skipWs (w ++ t) = skipWs t := by
  induction w with
  | nil => rfl
  | cons c r ih =>
    have hc : isWsB c = true := h c (by simp)
    simp [skipWs, hc, ih (fun b hb => h b (by simp [hb]))]

theorem skipWs_cons_nonws (c : Nat) (t : List Nat) (h : isWsB c = false) :
    skipWs (c :: t) = c :: t := by
  simp [skipWs, h]

theorem nlGap_ws (i : Bool) (d : Nat) : ∀ b ∈ nlGap i d, isWsB b = true := by
  intro b hb
  cases i with
  | false => simp [nlGap] at hb
  | true =>
    have he : nlGap true d = 10 :: List.replicate (2 * d) 32 := rfl
    rw [he] at hb
    cases hb with
    | head => decide
    | tail _ h =>
      rw [List.eq_of_mem_replicate h]
      decide

theorem ws_not_digit (c : Nat) (h : isWsB c = true) : isDigitB c = false := by
  have hc : c = 32 ∨ c = 9 ∨ c = 10 ∨ c = 13 := by
    simpa [isWsB, or_assoc] using h
  rcases hc with h2 | h2 | h2 | h2 <;> subst h2 <;> decide

/-- The remainder following a printed element can never extend a number
token. -/
def noDigitHead : List Nat → Bool
  | [] => true
  | c :: _ => !isDigitB c

theorem noDigitHead_ws_close (w : List Nat) (b : Nat) (rest : List Nat)
    (hw : ∀ x ∈ w, isWsB x = true) (hb : isDigitB b = false) :
    noDigitHead (w ++ b :: rest) = true := by
  cases w with
  | nil => simp [noDigitHead, hb]
  | cons c r =>
    have hc : isWsB c = true := hw c (by simp)
    simp [noDigitHead, ws_not_digit c hc]

/-! ### Decimal round-trip lemmas -/

theorem natDec_digits (n : Nat) : ∀ c ∈ natDec n, isDigitB c = true := by
  intro c hc
  by_cases h0 : n = 0
  · simp [natDec, h0] at hc
    simp [hc]
    decide
  · simp only [natDec, if_neg h0, List.mem_map, List.mem_reverse] at hc
    obtain ⟨d, hd, rfl⟩ := hc
    have : d < 10 := Nat.digits_lt_base (by norm_num) hd
    simp only [isDigitB, Bool.and_eq_true, decide_eq_true_eq]
    omega

theorem natDec_ne_nil (n : Nat) : natDec n ≠ [] := by
  by_cases h0 : n = 0
  · simp [natDec, h0]
  · simp [natDec, h0, Nat.digits_ne_nil_iff_ne_zero.mpr h0]

theorem natDec_head (n : Nat) : ∃ c t, natDec n = c :: t ∧ isDigitB c = true := by
  rcases he : natDec n with _ | ⟨c, t⟩
  · exact absurd he (natDec_ne_nil n)
  · exact ⟨c, t, rfl, natDec_digits n c (he ▸ List.mem_cons_self c t)⟩

theorem foldl_digits_rev (l : List Nat) (acc : Nat) :
    l.reverse.foldl (fun a d => a * 10 + d) acc = acc * 10 ^ l.length + Nat.ofDigits 10 l := by
  induction l generalizing acc with
  | nil => simp [Nat.ofDigits_nil]
  | cons d t ih =>
    simp only [List.reverse_cons, List.foldl_append, List.foldl_cons, List.foldl_nil,
      Nat.ofDigits_cons, List.length_cons, ih]
    ring

theorem digitsVal_natDec (n : Nat) : digitsVal (natDec n) = n := by
  by_cases h0 : n = 0
  · simp [natDec, h0, digitsVal]
  · simp only [natDec, if_neg h0, digitsVal, List.foldl_map]
    have hstep : (fun (a : Nat) (d : Nat) => a * 10 + (d + 48 - 48)) =
        (fun (a : Nat) (d : Nat) => a * 10 + d) := by
      funext a d
      omega
    rw [hstep, foldl_digits_rev, Nat.ofDigits_digits]
    simp

theorem takeWhile_run (p : Nat → Bool) (ds rest : List Nat)
    (h : ∀ c ∈ ds, p c = true) (h2 : rest.takeWhile p = []) :
    (ds ++ rest).takeWhile p = ds := by
  induction ds with
  | nil => simpa using h2
  | cons c r ih =>
    have hc : p c = true := h c (by simp)
    simp [List.takeWhile_cons, hc, ih (fun b hb => h b (by simp [hb]))]

theorem dropWhile_run (p : Nat → Bool) (ds rest : List Nat)
    (h : ∀ c ∈ ds, p c = true) (h2 : rest.dropWhile p = rest) :
    (ds ++ rest).dropWhile p = rest := by
  induction ds with
  | nil => simpa using h2
  | cons c r ih =>
    have hc : p c = true := h c (by simp)
    simp [List.dropWhile_cons, hc, ih (fun b hb => h b (by simp [hb]))]

theorem takeWhile_digit_stop (rest : List Nat) (h : noDigitHead rest = true) :
    rest.takeWhile isDigitB = [] := by
  cases rest with
  | nil => rfl
  | cons c r =>
    simp only [noDigitHead, Bool.not_eq_true'] at h
    simp [List.takeWhile_cons, h]

theorem dropWhile_digit_stop (rest : List Nat) (h : noDigitHead rest = true) :
    rest.dropWhile isDigitB = rest := by
  cases rest with
  | nil => rfl
  | cons c r =>
    simp only [noDigitHead, Bool.not_eq_true'] at h
    simp [List.dropWhile_cons, h]

theorem parseNatTok_natDec (n : Nat) (rest : List Nat) (hrest : noDigitHead rest = true) :
    parseNatTok (natDec n ++ rest) = some (n, rest) := by
  have ht := takeWhile_run isDigitB (natDec n) rest (natDec_digits n) (takeWhile_digit_stop rest hrest)
  have hd := dropWhile_run isDigitB (natDec n) rest (natDec_digits n) (dropWhile_digit_stop rest hrest)
  simp only [parseNatTok, ht, hd]
  rcases he : natDec n with _ | ⟨c, t⟩
  · exact absurd he (natDec_ne_nil n)
  · simp only [he]
    rw [← he, digitsVal_natDec]

theorem intDec_nonneg (n : Int) (h : ¬ n < 0) : intDec n = natDec n.toNat := by
  simp [intDec, h]

theorem parseIntTok_intDec (n : Int) (rest : List Nat) (hrest : noDigitHead rest = true) :
    parseIntTok (intDec n ++ rest) = some (n, rest) := by
  by_cases hn : n < 0
  · have he : intDec n ++ rest = 45 :: (natDec (-n).toNat ++ rest) := by
      simp [intDec, hn]
    rw [he]
    simp only [parseIntTok, if_pos rfl, parseNatTok_natDec _ _ hrest]
    have : (((-n).toNat : Int)) = -n := Int.toNat_of_nonneg (by omega)
    simp [this]
  · obtain ⟨c, t, hct, hdig⟩ := natDec_head n.toNat
    have hd : 48 ≤ c ∧ c ≤ 57 := by
      simpa [isDigitB] using hdig
    have he : intDec n ++ rest = c :: (t ++ rest) := by
      rw [intDec_nonneg n hn, hct]
      simp
    rw [he]
    have hc45 : ¬ c = 45 := by omega
    simp only [parseIntTok, if_neg hc45]
    have : c :: (t ++ rest) = natDec n.toNat ++ rest := by
      rw [hct]
      simp
    rw [this, parseNatTok_natDec _ _ hrest]
    have : ((n.toNat : Int)) = n := Int.toNat_of_nonneg (by omega)
    simp [this]

/-! ### String escape round-trip -/

theorem hexVal_hexDigitLower : ∀ d, d < 16 → hexVal (hexDigitLower d) = some d := by
  decide

theorem parseStringBody_escByte (c : Nat) (t : List Nat) :
    parseStringBody (escByte c ++ t) =
      match parseStringBody t with
      | some (st, rest) => some (c :: st, rest)
      | none => none := by
  by_cases h34 : c = 34
  · subst h34
    rcases hp : parseStringBody t with _ | ⟨st, rest⟩ <;>
      (rw [show escByte _ ++ t = _ from rfl]; rw [parseStringBody.eq_def]; simp [escByte, escCharInv, hp])
  by_cases h92 : c = 92
  · subst h92
    rcases hp : parseStringBody t with _ | ⟨st, rest⟩ <;>
      (rw [show escByte _ ++ t = _ from rfl]; rw [parseStringBody.eq_def]; simp [escByte, escCharInv, hp])
  by_cases h8 : c = 8
  · subst h8
    rcases hp : parseStringBody t with _ | ⟨st, rest⟩ <;>
      (rw [show escByte _ ++ t = _ from rfl]; rw [parseStringBody.eq_def]; simp [escByte, escCharInv, hp])
  by_cases h12 : c = 12
  · subst h12
    rcases hp : parseStringBody t with _ | ⟨st, rest⟩ <;>
      (rw [show escByte _ ++ t = _ from rfl]; rw [parseStringBody.eq_def]; simp [escByte, escCharInv, hp])
  by_cases h10 : c = 10
  · subst h10
    rcases hp : parseStringBody t with _ | ⟨st, rest⟩ <;>
      (rw [show escByte _ ++ t = _ from rfl]; rw [parseStringBody.eq_def]; simp [escByte, escCharInv, hp])
  by_cases h13 : c = 13
  · subst h13
    rcases hp : parseStringBody t with _ | ⟨st, rest⟩ <;>
      (rw [show escByte _ ++ t = _ from rfl]; rw [parseStringBody.eq_def]; simp [escByte, escCharInv, hp])
  by_cases h9 : c = 9
  · subst h9
    rcases hp : parseStringBody t with _ | ⟨st, rest⟩ <;>
      (rw [show escByte _ ++ t = _ from rfl]; rw [parseStringBody.eq_def]; simp [escByte, escCharInv, hp])
  by_cases hctl : c < 32
  · have hesc : escByte c =
        [92, 117, 48, 48, hexDigitLower (c / 16), hexDigitLower (c % 16)] := by
      simp [escByte, h34, h92, h8, h12, h10, h13, h9, hctl]
    have h0 : hexVal 48 = some 0 := by decide
    have hA := hexVal_hexDigitLower (c / 16) (by omega)
    have hB := hexVal_hexDigitLower (c % 16) (by omega)
    have hcp1 : 0 * 4096 + 0 * 256 + c / 16 * 16 + c % 16 = c := by omega
    have hcp2 : c / 16 * 16 + c % 16 = c := by omega
    have hu : utf8Bytes c = [c] := by
      simp only [utf8Bytes, if_pos (by omega : c < 128)]
    rw [hesc]
    rcases hp : parseStringBody t with _ | ⟨st, rest⟩ <;>
      (rw [parseStringBody.eq_def]; simp [h0, hA, hB, hcp1, hcp2, hu, hp])
  · have hesc : escByte c = [c] := by
      simp [escByte, h34, h92, h8, h12, h10, h13, h9, hctl]
    rw [hesc]
    rcases hp : parseStringBody t with _ | ⟨st, rest⟩ <;>
      (rw [parseStringBody.eq_def]; simp [h34, h92, hp]; try omega)

theorem parseStringBody_escString (s : List Nat) (t : List Nat) :
    parseStringBody (escString s ++ 34 :: t) = some (s, t) := by
  induction s with
  | nil =>
    rw [show escString [] ++ 34 :: t = 34 :: t from rfl, parseStringBody.eq_def]
    simp
  | cons c r ih =>
    have : escString (c :: r) ++ 34 :: t = escByte c ++ (escString r ++ 34 :: t) := by
      simp [escString]
    rw [this, parseStringBody_escByte, ih]

/-! ### Printer decompositions and head shapes -/

theorem sByGap_head (i : Bool) (d : Nat) (v : Json) :
    ∃ c t, sByGap i d v = c :: t ∧ isWsB c = false ∧ c ≠ 93 ∧ c ≠ 125 := by
  cases v with
  | null => exact ⟨110, _, rfl, by decide, by decide, by decide⟩
  | bool b =>
    cases b with
    | true => exact ⟨116, _, rfl, by decide, by decide, by decide⟩
    | false => exact ⟨102, _, rfl, by decide, by decide, by decide⟩
  | str s => exact ⟨34, _, rfl, by decide, by decide, by decide⟩
  | num n =>
    by_cases hn : n < 0
    · refine ⟨45, natDec (-n).toNat, ?_, by decide, by decide, by decide⟩
      simp [sByGap, intDec, hn]
    · obtain ⟨c, t, hct, hdig⟩ := natDec_head n.toNat
      have hb : 48 ≤ c ∧ c ≤ 57 := by simpa [isDigitB] using hdig
      refine ⟨c, t, ?_, ?_, by omega, by omega⟩
      · simp [sByGap, intDec, hn, hct]
      · simp [isWsB]
        omega
  | arr es =>
    cases es with
    | nil => exact ⟨91, _, rfl, by decide, by decide, by decide⟩
    | cons x xs => exact ⟨91, _, rfl, by decide, by decide, by decide⟩
  | obj fs =>
    cases fs with
    | nil => exact ⟨123, _, rfl, by decide, by decide, by decide⟩
    | cons f r =>
      obtain ⟨k, v2⟩ := f
      exact ⟨123, _, rfl, by decide, by decide, by decide⟩

/-- The tail of an element list after its first element: nothing, or a comma
and the remaining elements. -/
def sElemsCont (i : Bool) (d : Nat) : List Json → List Nat
  | [] => []
  | y :: r => 44 :: sElems i d (y :: r)

theorem sElems_decomp (i : Bool) (d : Nat) (x : Json) (xs : List Json) :
    sElems i d (x :: xs) = nlGap i d ++ (sByGap i d x ++ sElemsCont i d xs) := by
  cases xs with
  | nil => simp [sElems, sElemsCont]
  | cons y r => simp [sElems, sElemsCont]

def sFieldsCont (i : Bool) (d : Nat) : List (List Nat × Json) → List Nat
  | [] => []
  | g :: r => 44 :: sFields i d (g :: r)

theorem sFields_decomp (i : Bool) (d : Nat) (k : List Nat) (v : Json)
    (fs : List (List Nat × Json)) :
    sFields i d ((k, v) :: fs) =
      nlGap i d ++ (34 :: (escString k ++ 34 :: (colGap i ++
        (sByGap i d v ++ sFieldsCont i d fs)))) := by
  cases fs with
  | nil => simp [sFields, sFieldsCont]
  | cons g r => simp [sFields, sFieldsCont]

/-- The whitespace that follows the colon separator. -/
def colTail (i : Bool) : List Nat := if i then [32] else []

theorem colGap_eq (i : Bool) : colGap i = 58 :: colTail i := by
  cases i <;> rfl

theorem colTail_ws (i : Bool) : ∀ b ∈ colTail i, isWsB b = true := by
  cases i <;> intro b hb <;> simp [colTail] at hb
  subst hb
  decide

/-! ### Field assembly for parsed objects -/

theorem keyNotIn_append (k : List Nat) (a b : List (List Nat × Json)) :
    keyNotIn k (a ++ b) = (keyNotIn k a && keyNotIn k b) := by
  induction a with
  | nil => simp [keyNotIn]
  | cons p r ih =>
    obtain ⟨l, w⟩ := p
    by_cases h : k = l <;> simp [keyNotIn, h, ih]

theorem keyNotIn_of_mem (k : List Nat) (l : List (List Nat × Json)) (q : List Nat) (w : Json)
    (h : keyNotIn k l = true) (hm : (q, w) ∈ l) : ¬ q = k := by
  induction l with
  | nil => simp at hm
  | cons p r ih =>
    obtain ⟨a, b⟩ := p
    simp only [keyNotIn] at h
    by_cases hka : k = a
    · rw [if_pos hka] at h
      exact absurd h (by simp)
    · rw [if_neg hka] at h
      rcases List.mem_cons.mp hm with he | hm2
      · obtain ⟨rfl, rfl⟩ := Prod.mk.injEq .. ▸ he
        exact fun e => hka (by rw [← e]) |>.elim
      · exact ih h hm2

/-- The keys of a field list are pairwise distinct. -/
def keysUnique : List (List Nat × Json) → Bool
  | [] => true
  | (k, _) :: r => keyNotIn k r && keysUnique r

theorem keysUnique_of_jsonOKF (fs : List (List Nat × Json)) (h : jsonOKF fs = true) :
    keysUnique fs = true := by
  induction fs with
  | nil => rfl
  | cons p r ih =>
    obtain ⟨k, v⟩ := p
    simp only [jsonOKF, Bool.and_eq_true] at h
    simp [keysUnique, h.1.1.2, ih h.2]

theorem assembleFields_go (fs : List (List Nat × Json)) (acc : List (List Nat × Json))
    (hu : keysUnique fs = true) (hfresh : ∀ p ∈ fs, keyNotIn p.1 acc = true) :
    List.foldl (fun a kv => objSet a kv.1 kv.2) acc fs = acc ++ fs := by
  induction fs generalizing acc with
  | nil => simp
  | cons p r ih =>
    obtain ⟨k, v⟩ := p
    simp only [keysUnique, Bool.and_eq_true] at hu
    simp only [List.foldl_cons]
    rw [objSet_fresh acc k v (hfresh (k, v) (by simp))]
    rw [ih (acc ++ [(k, v)]) hu.2 ?_]
    · simp
    · intro p hp
      rw [keyNotIn_append]
      have h1 : keyNotIn p.1 acc = true := hfresh p (by simp [hp])
      have h2 : ¬ p.1 = k := keyNotIn_of_mem k r p.1 p.2 hu.1 hp
      simp [h1, keyNotIn, h2]

theorem assembleFields_eq (fs : List (List Nat × Json)) (hu : keysUnique fs = true) :
    assembleFields fs = fs := by
  have := assembleFields_go fs [] hu (by intro p hp; rfl)
  simpa [assembleFields] using this

theorem jsize_pos (v : Json) : 1 ≤ jsize v := by
  cases v <;> simp [jsize]

theorem noDigitHead_cons (c : Nat) (z : List Nat) (h : isDigitB c = false) :
    noDigitHead (c :: z) = true := by
  simp [noDigitHead, h]

theorem jsonOKL_cons (x : Json) (r : List Json) :
    jsonOKL (x :: r) = (jsonOK x && jsonOKL r) := rfl

theorem jsonOKF_cons (k : List Nat) (v : Json) (r : List (List Nat × Json)) :
    jsonOKF ((k, v) :: r) = (bytesOK k && keyNotIn k r && jsonOK v && jsonOKF r) := rfl

theorem jsizeL_cons (x : Json) (r : List Json) : jsizeL (x :: r) = 1 + jsize x + jsizeL r := rfl

theorem jsizeF_cons (k : List Nat) (v : Json) (r : List (List Nat × Json)) :
    jsizeF ((k, v) :: r) = 1 + jsize v + jsizeF r := rfl

/-! ### The parse/print round-trip

Proved by mutual induction on the parser fuel: every printed value, preceded
by arbitrary whitespace and followed by a remainder that cannot extend a
number token, parses back to itself, provided the fuel covers `jsize` and
the value has unique object keys. -/

mutual

theorem rtV : ∀ (fuel : Nat) (i : Bool) (d : Nat) (v : Json) (w rest : List Nat),
    jsize v ≤ fuel → jsonOK v = true → (∀ b ∈ w, isWsB b = true) →
    noDigitHead rest = true →
    parseValueF fuel (w ++ (sByGap i d v ++ rest)) = some (v, rest)
  | 0, i, d, v, w, rest, hsz, _, _, _ => by
    have := jsize_pos v
    omega
  | fuel + 1, i, d, v, w, rest, hsz, hok, hw, hrest => by
    cases v with
    | null =>
      have hskip : skipWs (w ++ (sByGap i d Json.null ++ rest))
          = 110 :: ([117, 108, 108] ++ rest) := by
        rw [skipWs_ws_front w _ hw]
        rw [show sByGap i d Json.null = [110, 117, 108, 108] from rfl]
        rw [show ([110, 117, 108, 108] ++ rest : List Nat)
          = 110 :: ([117, 108, 108] ++ rest) from rfl]
        exact skipWs_cons_nonws _ _ (by decide)
      rw [parseValueF.eq_def]
      simp [hskip]
    | bool b =>
      cases b with
      | true =>
        have hskip : skipWs (w ++ (sByGap i d (Json.bool true) ++ rest))
            = 116 :: ([114, 117, 101] ++ rest) := by
          rw [skipWs_ws_front w _ hw]
          rw [show sByGap i d (Json.bool true) = [116, 114, 117, 101] from rfl]
          rw [show ([116, 114, 117, 101] ++ rest : List Nat)
            = 116 :: ([114, 117, 101] ++ rest) from rfl]
          exact skipWs_cons_nonws _ _ (by decide)
        rw [parseValueF.eq_def]
        simp [hskip]
      | false =>
        have hskip : skipWs (w ++ (sByGap i d (Json.bool false) ++ rest))
            = 102 :: ([97, 108, 115, 101] ++ rest) := by
          rw [skipWs_ws_front w _ hw]
          rw [show sByGap i d (Json.bool false) = [102, 97, 108, 115, 101] from rfl]
          rw [show ([102, 97, 108, 115, 101] ++ rest : List Nat)
            = 102 :: ([97, 108, 115, 101] ++ rest) from rfl]
          exact skipWs_cons_nonws _ _ (by decide)
        rw [parseValueF.eq_def]
        simp [hskip]
    | num n =>
      have hd : ∃ c t, intDec n = c :: t ∧ (c = 45 ∨ 48 ≤ c ∧ c ≤ 57) := by
        by_cases hn : n < 0
        · exact ⟨45, natDec (-n).toNat, by simp [intDec, hn], Or.inl rfl⟩
        · obtain ⟨c, t, hct, hdig⟩ := natDec_head n.toNat
          refine ⟨c, t, ?_, Or.inr (by simpa [isDigitB] using hdig)⟩
          simp [intDec, hn, hct]
      obtain ⟨c, t, hct, hcb⟩ := hd
      have h110 : ¬ c = 110 := by omega
      have h116 : ¬ c = 116 := by omega
      have h102 : ¬ c = 102 := by omega
      have h34 : ¬ c = 34 := by omega
      have h91 : ¬ c = 91 := by omega
      have h123 : ¬ c = 123 := by omega
      have hws : isWsB c = false := by
        simp only [isWsB, Bool.or_eq_false_iff, decide_eq_false_iff_not]
        omega
      have hskip : skipWs (w ++ (sByGap i d (Json.num n) ++ rest)) = c :: (t ++ rest) := by
        rw [skipWs_ws_front w _ hw]
        rw [show sByGap i d (Json.num n) = intDec n from rfl, hct, List.cons_append]
        exact skipWs_cons_nonws _ _ hws
      have hback : c :: (t ++ rest) = intDec n ++ rest := by
        rw [hct]
        simp
      rw [parseValueF.eq_def]
      simp only [hskip, h110, h116, h102, h34, h91, h123, if_false, if_neg]
      rw [hback, parseIntTok_intDec n rest hrest]
    | str s =>
      have hskip : skipWs (w ++ (sByGap i d (Json.str s) ++ rest))
          = 34 :: (escString s ++ 34 :: rest) := by
        rw [skipWs_ws_front w _ hw]
        rw [show sByGap i d (Json.str s) ++ rest
          = 34 :: (escString s ++ 34 :: rest) from by simp [sByGap]]
        exact skipWs_cons_nonws _ _ (by decide)
      rw [parseValueF.eq_def]
      simp [hskip, parseStringBody_escString]
    | arr es =>
      cases es with
      | nil =>
        have hskip : skipWs (w ++ (sByGap i d (Json.arr []) ++ rest))
            = 91 :: (93 :: rest) := by
          rw [skipWs_ws_front w _ hw]
          rw [show sByGap i d (Json.arr []) ++ rest = 91 :: (93 :: rest) from rfl]
          exact skipWs_cons_nonws _ _ (by decide)
        have hsk2 : skipWs (93 :: rest) = 93 :: rest := skipWs_cons_nonws _ _ (by decide)
        rw [parseValueF.eq_def]
        simp [hskip, hsk2]
      | cons x xs =>
        have hsz2 : jsizeL (x :: xs) ≤ fuel := by
          simp only [jsize] at hsz
          omega
        have hok2 : jsonOKL (x :: xs) = true := by simpa [jsonOK] using hok
        obtain ⟨c2, t2, hct2, hws2, hc93, _⟩ := sByGap_head i (d + 1) x
        have hskip : skipWs (w ++ (sByGap i d (Json.arr (x :: xs)) ++ rest))
            = 91 :: (sElems i (d + 1) (x :: xs) ++ (nlGap i d ++ (93 :: rest))) := by
          rw [skipWs_ws_front w _ hw]
          rw [show sByGap i d (Json.arr (x :: xs)) ++ rest
            = 91 :: (sElems i (d + 1) (x :: xs) ++ (nlGap i d ++ (93 :: rest))) from by
              simp [sByGap]]
          exact skipWs_cons_nonws _ _ (by decide)
        have hinner : skipWs (sElems i (d + 1) (x :: xs) ++ (nlGap i d ++ (93 :: rest)))
            = c2 :: (t2 ++ (sElemsCont i (d + 1) xs ++ (nlGap i d ++ (93 :: rest)))) := by
          rw [sElems_decomp]
          rw [List.append_assoc, skipWs_ws_front _ _ (nlGap_ws i (d + 1))]
          rw [hct2]
          simp only [List.append_assoc, List.cons_append]
          exact skipWs_cons_nonws _ _ hws2
        have hhead : (c2 :: (t2 ++ (sElemsCont i (d + 1) xs ++ (nlGap i d ++ (93 :: rest))))).head?
            ≠ some 93 := by
          simp [hc93]
        have he := rtE fuel i (d + 1) x xs [] (nlGap i d) rest hsz2 hok2
          (by intro b hb; simp at hb) (nlGap_ws i d)
        rw [List.nil_append] at he
        rw [parseValueF.eq_def]
        simp only [hskip]
        simp only [show ¬ (91 = 110) from by decide, show ¬ (91 = 116) from by decide,
          show ¬ (91 = 102) from by decide, show ¬ (91 = 34) from by decide,
          if_false, if_neg, if_pos, if_true, reduceIte]
        rw [hinner]
        rw [if_neg hhead]
        have hrejoin : c2 :: (t2 ++ (sElemsCont i (d + 1) xs ++ (nlGap i d ++ 93 :: rest)))
            = sByGap i (d + 1) x ++ (sElemsCont i (d + 1) xs ++ (nlGap i d ++ 93 :: rest)) := by
          rw [hct2, List.cons_append]
        rw [hrejoin, he]
    | obj fs =>
      cases fs with
      | nil =>
        have hskip : skipWs (w ++ (sByGap i d (Json.obj []) ++ rest))
            = 123 :: (125 :: rest) := by
          rw [skipWs_ws_front w _ hw]
          rw [show sByGap i d (Json.obj []) ++ rest = 123 :: (125 :: rest) from rfl]
          exact skipWs_cons_nonws _ _ (by decide)
        have hsk2 : skipWs (125 :: rest) = 125 :: rest := skipWs_cons_nonws _ _ (by decide)
        rw [parseValueF.eq_def]
        simp [hskip, hsk2, assembleFields]
      | cons f fs2 =>
        obtain ⟨k, v0⟩ := f
        have hsz2 : jsizeF ((k, v0) :: fs2) ≤ fuel := by
          simp only [jsize] at hsz
          omega
        have hok2 : jsonOKF ((k, v0) :: fs2) = true := by simpa [jsonOK] using hok
        have hskip : skipWs (w ++ (sByGap i d (Json.obj ((k, v0) :: fs2)) ++ rest))
            = 123 :: (sFields i (d + 1) ((k, v0) :: fs2) ++ (nlGap i d ++ (125 :: rest))) := by
          rw [skipWs_ws_front w _ hw]
          rw [show sByGap i d (Json.obj ((k, v0) :: fs2)) ++ rest
            = 123 :: (sFields i (d + 1) ((k, v0) :: fs2) ++ (nlGap i d ++ (125 :: rest))) from by
              simp [sByGap]]
          exact skipWs_cons_nonws _ _ (by decide)
        have hinner : skipWs (sFields i (d + 1) ((k, v0) :: fs2) ++ (nlGap i d ++ (125 :: rest)))
            = 34 :: (escString k ++ 34 :: (colGap i ++ (sByGap i (d + 1) v0 ++
                (sFieldsCont i (d + 1) fs2 ++ (nlGap i d ++ (125 :: rest)))))) := by
          rw [sFields_decomp]
          rw [List.append_assoc, skipWs_ws_front _ _ (nlGap_ws i (d + 1))]
          simp only [List.append_assoc, List.cons_append]
          exact skipWs_cons_nonws _ _ (by decide)
        have hf := rtF fuel i (d + 1) k v0 fs2 [] (nlGap i d) rest hsz2 hok2
          (by intro b hb; simp at hb) (nlGap_ws i d)
        rw [List.nil_append] at hf
        rw [parseValueF.eq_def]
        simp only [hskip]
        simp only [show ¬ (123 = 110) from by decide, show ¬ (123 = 116) from by decide,
          show ¬ (123 = 102) from by decide, show ¬ (123 = 34) from by decide,
          show ¬ (123 = 91) from by decide, if_false, if_neg, if_pos, if_true, reduceIte]
        rw [hinner]
        rw [if_neg (by simp)]
        rw [hf]
        have hasm : assembleFields ((k, v0) :: fs2) = (k, v0) :: fs2 :=
          assembleFields_eq _ (keysUnique_of_jsonOKF _ hok2)
        simp [hasm]

theorem rtE : ∀ (fuel : Nat) (i : Bool) (d : Nat) (x : Json) (xs : List Json)
    (w1 w2 rest : List Nat),
    jsizeL (x :: xs) ≤ fuel → jsonOKL (x :: xs) = true →
    (∀ b ∈ w1, isWsB b = true) → (∀ b ∈ w2, isWsB b = true) →
    parseElemsF fuel (w1 ++ (sByGap i d x ++ (sElemsCont i d xs ++ (w2 ++ 93 :: rest))))
      = some (x :: xs, rest)
  | 0, i, d, x, xs, w1, w2, rest, hsz, _, _, _ => by
    have := jsize_pos x
    rw [jsizeL_cons] at hsz
    omega
  | fuel + 1, i, d, x, xs, w1, w2, rest, hsz, hok, hw1, hw2 => by
    have hszx : jsize x ≤ fuel := by
      rw [jsizeL_cons] at hsz
      omega
    have hokx : jsonOK x = true := by
      rw [jsonOKL_cons, Bool.and_eq_true] at hok
      exact hok.1
    have hdelim : noDigitHead (sElemsCont i d xs ++ (w2 ++ 93 :: rest)) = true := by
      cases xs with
      | nil =>
        rw [show sElemsCont i d [] = [] from rfl, List.nil_append]
        exact noDigitHead_ws_close w2 93 rest hw2 (by decide)
      | cons y ys =>
        rw [show sElemsCont i d (y :: ys) = 44 :: sElems i d (y :: ys) from rfl]
        exact noDigitHead_cons _ _ (by decide)
    have hv := rtV fuel i d x w1 (sElemsCont i d xs ++ (w2 ++ 93 :: rest)) hszx hokx hw1 hdelim
    rw [parseElemsF.eq_def]
    simp only [hv]
    cases xs with
    | nil =>
      have hs : skipWs (sElemsCont i d [] ++ (w2 ++ 93 :: rest)) = 93 :: rest := by
        rw [show sElemsCont i d [] = [] from rfl, List.nil_append]
        rw [skipWs_ws_front w2 _ hw2]
        exact skipWs_cons_nonws _ _ (by decide)
      simp [hs]
    | cons y ys =>
      have hs : skipWs (sElemsCont i d (y :: ys) ++ (w2 ++ 93 :: rest))
          = 44 :: (sElems i d (y :: ys) ++ (w2 ++ 93 :: rest)) := by
        rw [show sElemsCont i d (y :: ys) = 44 :: sElems i d (y :: ys) from rfl]
        rw [List.cons_append]
        exact skipWs_cons_nonws _ _ (by decide)
      have hszr : jsizeL (y :: ys) ≤ fuel := by
        rw [jsizeL_cons] at hsz
        have := jsize_pos x
        omega
      have hokr : jsonOKL (y :: ys) = true := by
        rw [jsonOKL_cons, Bool.and_eq_true] at hok
        exact hok.2
      have he := rtE fuel i d y ys (nlGap i d) w2 rest hszr hokr (nlGap_ws i d) hw2
      have harg : sElems i d (y :: ys) ++ (w2 ++ 93 :: rest)
          = nlGap i d ++ (sByGap i d y ++ (sElemsCont i d ys ++ (w2 ++ 93 :: rest))) := by
        rw [sElems_decomp]
        simp [List.append_assoc]
      simp only [hs]
      rw [show (44 : Nat) = 44 from rfl]
      simp only [show ¬ (44 = 93) from by decide, if_neg, if_pos, if_true, if_false, reduceIte]
      rw [harg, he]

theorem rtF : ∀ (fuel : Nat) (i : Bool) (d : Nat) (k : List Nat) (v : Json)
    (fs : List (List Nat × Json)) (w1 w2 rest : List Nat),
    jsizeF ((k, v) :: fs) ≤ fuel → jsonOKF ((k, v) :: fs) = true →
    (∀ b ∈ w1, isWsB b = true) → (∀ b ∈ w2, isWsB b = true) →
    parseFieldsF fuel (w1 ++ (34 :: (escString k ++ 34 :: (colGap i ++
        (sByGap i d v ++ (sFieldsCont i d fs ++ (w2 ++ 125 :: rest)))))))
      = some ((k, v) :: fs, rest)
  | 0, i, d, k, v, fs, w1, w2, rest, hsz, _, _, _ => by
    have := jsize_pos v
    rw [jsizeF_cons] at hsz
    omega
  | fuel + 1, i, d, k, v, fs, w1, w2, rest, hsz, hok, hw1, hw2 => by
    have hszv : jsize v ≤ fuel := by
      rw [jsizeF_cons] at hsz
      omega
    have hokv : jsonOK v = true := by
      rw [jsonOKF_cons] at hok
      simp only [Bool.and_eq_true] at hok
      exact hok.1.2
    have hdelim : noDigitHead (sFieldsCont i d fs ++ (w2 ++ 125 :: rest)) = true := by
      cases fs with
      | nil =>
        rw [show sFieldsCont i d [] = [] from rfl, List.nil_append]
        exact noDigitHead_ws_close w2 125 rest hw2 (by decide)
      | cons g gs =>
        rw [show sFieldsCont i d (g :: gs) = 44 :: sFields i d (g :: gs) from rfl]
        exact noDigitHead_cons _ _ (by decide)
    have hskip : skipWs (w1 ++ (34 :: (escString k ++ 34 :: (colGap i ++
        (sByGap i d v ++ (sFieldsCont i d fs ++ (w2 ++ 125 :: rest)))))))
        = 34 :: (escString k ++ 34 :: (colGap i ++
          (sByGap i d v ++ (sFieldsCont i d fs ++ (w2 ++ 125 :: rest))))) := by
      rw [skipWs_ws_front w1 _ hw1]
      exact skipWs_cons_nonws _ _ (by decide)
    have hstr := parseStringBody_escString k (colGap i ++
      (sByGap i d v ++ (sFieldsCont i d fs ++ (w2 ++ 125 :: rest))))
    have hcolon : skipWs (colGap i ++
        (sByGap i d v ++ (sFieldsCont i d fs ++ (w2 ++ 125 :: rest))))
        = 58 :: (colTail i ++ (sByGap i d v ++ (sFieldsCont i d fs ++ (w2 ++ 125 :: rest)))) := by
      rw [colGap_eq, List.cons_append]
      exact skipWs_cons_nonws _ _ (by decide)
    have hv := rtV fuel i d v (colTail i)
      (sFieldsCont i d fs ++ (w2 ++ 125 :: rest)) hszv hokv (colTail_ws i) hdelim
    rw [parseFieldsF.eq_def]
    simp only [hskip]
    simp only [if_pos, reduceIte]
    rw [hstr]
    simp only [hcolon]
    simp only [if_pos, reduceIte]
    rw [hv]
    cases fs with
    | nil =>
      have hs : skipWs (sFieldsCont i d [] ++ (w2 ++ 125 :: rest)) = 125 :: rest := by
        rw [show sFieldsCont i d [] = [] from rfl, List.nil_append]
        rw [skipWs_ws_front w2 _ hw2]
        exact skipWs_cons_nonws _ _ (by decide)
      simp [hs]
    | cons g gs =>
      obtain ⟨k2, v2⟩ := g
      have hs : skipWs (sFieldsCont i d ((k2, v2) :: gs) ++ (w2 ++ 125 :: rest))
          = 44 :: (sFields i d ((k2, v2) :: gs) ++ (w2 ++ 125 :: rest)) := by
        rw [show sFieldsCont i d ((k2, v2) :: gs) = 44 :: sFields i d ((k2, v2) :: gs) from rfl]
        rw [List.cons_append]
        exact skipWs_cons_nonws _ _ (by decide)
      have hszr : jsizeF ((k2, v2) :: gs) ≤ fuel := by
        rw [jsizeF_cons] at hsz
        have := jsize_pos v
        omega
      have hokr : jsonOKF ((k2, v2) :: gs) = true := by
        rw [jsonOKF_cons] at hok
        simp only [Bool.and_eq_true] at hok
        exact hok.2
      have hf := rtF fuel i d k2 v2 gs (nlGap i d) w2 rest hszr hokr (nlGap_ws i d) hw2
      have harg : sFields i d ((k2, v2) :: gs) ++ (w2 ++ 125 :: rest)
          = nlGap i d ++ (34 :: (escString k2 ++ 34 :: (colGap i ++
            (sByGap i d v2 ++ (sFieldsCont i d gs ++ (w2 ++ 125 :: rest)))))) := by
        rw [sFields_decomp]
        simp [List.append_assoc]
      simp only [hs]
      simp only [show ¬ (44 = 125) from by decide, if_neg, if_pos, if_true, if_false, reduceIte]
      rw [harg, hf]

end

/-- The parser fuel drawn from the input length covers `jsize`: each unit of
`jsize` corresponds to at least half a printed byte. -/
theorem sizeBound (N : Nat) :
    (∀ (i : Bool) (d : Nat) (v : Json), jsize v ≤ N → jsize v ≤ 2 * (sByGap i d v).length)
    ∧ (∀ (i : Bool) (d : Nat) (l : List Json), jsizeL l ≤ N →
        jsizeL l ≤ 2 * (sElems i d l).length + 1)
    ∧ (∀ (i : Bool) (d : Nat) (fs : List (List Nat × Json)), jsizeF fs ≤ N →
        jsizeF fs ≤ 2 * (sFields i d fs).length + 1) := by
  induction N with
  | zero =>
    refine ⟨fun i d v hsz => ?_, fun i d l hsz => ?_, fun i d fs hsz => ?_⟩
    · have := jsize_pos v
      omega
    · cases l with
      | nil => simp [jsizeL]
      | cons x r =>
        rw [jsizeL_cons] at hsz
        have := jsize_pos x
        omega
    · cases fs with
      | nil => simp [jsizeF]
      | cons p r =>
        obtain ⟨k, v⟩ := p
        rw [jsizeF_cons] at hsz
        have := jsize_pos v
        omega
  | succ n ih =>
    obtain ⟨ihv, ihl, ihf⟩ := ih
    refine ⟨fun i d v hsz => ?_, fun i d l hsz => ?_, fun i d fs hsz => ?_⟩
    · cases v with
      | arr es =>
        cases es with
        | nil => simp [jsize, jsizeL, sByGap]
        | cons x xs =>
          have h1 : jsizeL (x :: xs) ≤ n := by
            simp only [jsize] at hsz
            omega
          have h2 := ihl i (d + 1) (x :: xs) h1
          simp only [jsize, sByGap, List.length_cons, List.length_append]
          omega
      | obj fs =>
        cases fs with
        | nil => simp [jsize, jsizeF, sByGap]
        | cons p r =>
          obtain ⟨k, v0⟩ := p
          have h1 : jsizeF ((k, v0) :: r) ≤ n := by
            simp only [jsize] at hsz
            omega
          have h2 := ihf i (d + 1) ((k, v0) :: r) h1
          simp only [jsize, sByGap, List.length_cons, List.length_append]
          omega
      | null =>
        simp only [jsize, sByGap, List.length_cons, List.length_nil]
        omega
      | bool b =>
        cases b <;> simp only [jsize, sByGap, List.length_cons, List.length_nil] <;> omega
      | str s2 =>
        have h1 : jsize (Json.str s2) = 1 := rfl
        have h2 : (sByGap i d (Json.str s2)).length = (escString s2 ++ [34]).length + 1 := rfl
        omega
      | num m =>
        obtain ⟨c, t, hct, _⟩ := sByGap_head i d (Json.num m)
        have hlen : (sByGap i d (Json.num m)).length = t.length + 1 := by
          rw [hct]
          simp
        have h1 : jsize (Json.num m) = 1 := rfl
        omega
    · cases l with
      | nil => simp [jsizeL]
      | cons x xs =>
        cases xs with
        | nil =>
          have hx : jsize x ≤ n := by
            rw [jsizeL_cons] at hsz
            omega
          have h2 := ihv i d x hx
          rw [jsizeL_cons]
          simp only [sElems, List.length_append, jsizeL]
          omega
        | cons y ys =>
          have hposY : 1 ≤ jsizeL (y :: ys) := by
            rw [jsizeL_cons]
            have := jsize_pos y
            omega
          have hx : jsize x ≤ n := by
            rw [jsizeL_cons] at hsz
            omega
          have hr : jsizeL (y :: ys) ≤ n := by
            rw [jsizeL_cons] at hsz
            have := jsize_pos x
            omega
          have h2 := ihv i d x hx
          have h3 := ihl i d (y :: ys) hr
          rw [jsizeL_cons]
          simp only [sElems, List.length_append, List.length_cons]
          omega
    · cases fs with
      | nil => simp [jsizeF]
      | cons p r =>
        obtain ⟨k, v0⟩ := p
        cases r with
        | nil =>
          have hx : jsize v0 ≤ n := by
            rw [jsizeF_cons] at hsz
            omega
          have h2 := ihv i d v0 hx
          rw [jsizeF_cons]
          simp only [sFields, List.length_append, List.length_cons, jsizeF]
          omega
        | cons g gs =>
          obtain ⟨k2, v2⟩ := g
          have hposY : 1 ≤ jsizeF ((k2, v2) :: gs) := by
            rw [jsizeF_cons]
            have := jsize_pos v2
            omega
          have hx : jsize v0 ≤ n := by
            rw [jsizeF_cons] at hsz
            omega
          have hr : jsizeF ((k2, v2) :: gs) ≤ n := by
            rw [jsizeF_cons] at hsz
            have := jsize_pos v0
            omega
          have h2 := ihv i d v0 hx
          have h3 := ihf i d ((k2, v2) :: gs) hr
          rw [jsizeF_cons]
          simp only [sFields, List.length_append, List.length_cons]
          omega

/-- Round-trip through the top-level parser for either rendering form. -/
theorem parse_print (i : Bool) (v : Json) (h : jsonOK v = true) :
    parseJson (sByGap i 0 v) = some v := by
  have hb := (sizeBound (jsize v)).1 i 0 v le_rfl
  have hfuel : jsize v ≤ 2 * (sByGap i 0 v).length + 2 := by omega
  have hv := rtV (2 * (sByGap i 0 v).length + 2) i 0 v [] [] hfuel h
    (by intro b hb2; simp at hb2) (by rfl)
  rw [List.nil_append, List.append_nil] at hv
  rw [parseJson, hv]
  simp [skipWs]

theorem parseJson_stringify (v : Json) (h : jsonOK v = true) :
    parseJson (jsonStringify v) = some v := parse_print false v h

theorem parseJson_stringify2 (v : Json) (h : jsonOK v = true) :
    parseJson (jsonStringify2 v) = some v := parse_print true v h

/-! ### Printed bytes stay below 256 -/

theorem natDec_lt (n : Nat) : ∀ b ∈ natDec n, b < 256 := by
  intro b hb
  have := natDec_digits n b hb
  simp only [isDigitB, Bool.and_eq_true, decide_eq_true_eq] at this
  omega

theorem intDec_lt (n : Int) : ∀ b ∈ intDec n, b < 256 := by
  intro b hb
  by_cases hn : n < 0
  · simp only [intDec, if_pos hn, List.mem_cons] at hb
    rcases hb with h | h
    · omega
    · exact natDec_lt _ b h
  · simp only [intDec, if_neg hn] at hb
    exact natDec_lt _ b hb

theorem hexDigitLower_lt : ∀ d, d < 16 → hexDigitLower d < 256 := by decide

theorem escByte_lt (c : Nat) (hc : c < 256) : ∀ b ∈ escByte c, b < 256 := by
  intro b hb
  have hx1 := hexDigitLower_lt (c / 16) (by omega)
  have hx2 := hexDigitLower_lt (c % 16) (by omega)
  simp only [escByte] at hb
  split_ifs at hb <;> simp at hb <;> omega

theorem escString_lt (s : List Nat) (h : bytesOK s = true) : ∀ b ∈ escString s, b < 256 := by
  intro b hb
  simp only [escString] at hb
  rw [List.mem_flatMap] at hb
  obtain ⟨c, hc, hbc⟩ := hb
  have hlt : c < 256 := by
    simp only [bytesOK, List.all_eq_true, decide_eq_true_eq] at h
    exact h c hc
  exact escByte_lt c hlt b hbc

theorem nlGap_lt (i : Bool) (d : Nat) : ∀ b ∈ nlGap i d, b < 256 := by
  intro b hb
  have := nlGap_ws i d b hb
  simp only [isWsB, Bool.or_eq_true, decide_eq_true_eq] at this
  omega

theorem colGap_lt (i : Bool) : ∀ b ∈ colGap i, b < 256 := by
  cases i <;> intro b hb <;> simp [colGap] at hb <;> omega

mutual

theorem bytesLT_val : ∀ (i : Bool) (d : Nat) (v : Json), jsonOK v = true →
    ∀ b ∈ sByGap i d v, b < 256
  | i, d, .null, _ => by
    intro b hb
    simp only [sByGap, List.mem_cons, List.not_mem_nil, or_false, or_assoc] at hb
    omega
  | i, d, .bool true, _ => by
    intro b hb
    simp only [sByGap, List.mem_cons, List.not_mem_nil, or_false, or_assoc] at hb
    omega
  | i, d, .bool false, _ => by
    intro b hb
    simp only [sByGap, List.mem_cons, List.not_mem_nil, or_false, or_assoc] at hb
    omega
  | i, d, .num n, _ => by
    intro b hb
    exact intDec_lt n b hb
  | i, d, .str s, hok => by
    intro b hb
    simp only [sByGap, List.mem_cons, List.mem_append, List.not_mem_nil, or_false,
      or_assoc] at hb
    rcases hb with h | h | h
    · omega
    · exact escString_lt s (by simpa [jsonOK] using hok) b h
    · omega
  | i, d, .arr [], _ => by
    intro b hb
    simp only [sByGap, List.mem_cons, List.not_mem_nil, or_false, or_assoc] at hb
    omega
  | i, d, .arr (x :: xs), hok => by
    intro b hb
    simp only [sByGap, List.mem_cons, List.mem_append, List.not_mem_nil, or_false,
      or_assoc] at hb
    rcases hb with h | h | h | h
    · omega
    · exact bytesLT_elems i (d + 1) (x :: xs) (by simpa [jsonOK] using hok) b h
    · exact nlGap_lt i d b h
    · omega
  | i, d, .obj [], _ => by
    intro b hb
    simp only [sByGap, List.mem_cons, List.not_mem_nil, or_false, or_assoc] at hb
    omega
  | i, d, .obj (f :: fs), hok => by
    intro b hb
    simp only [sByGap, List.mem_cons, List.mem_append, List.not_mem_nil, or_false,
      or_assoc] at hb
    rcases hb with h | h | h | h
    · omega
    · exact bytesLT_fields i (d + 1) (f :: fs) (by simpa [jsonOK] using hok) b h
    · exact nlGap_lt i d b h
    · omega

theorem bytesLT_elems : ∀ (i : Bool) (d : Nat) (l : List Json), jsonOKL l = true →
    ∀ b ∈ sElems i d l, b < 256
  | i, d, [], _ => by
    intro b hb
    simp [sElems] at hb
  | i, d, [x], hok => by
    intro b hb
    simp only [sElems, List.mem_append, or_assoc] at hb
    rcases hb with h | h
    · exact nlGap_lt i d b h
    · exact bytesLT_val i d x (by
        rw [jsonOKL_cons, Bool.and_eq_true] at hok
        exact hok.1) b h
  | i, d, x :: y :: r, hok => by
    intro b hb
    simp only [sElems, List.mem_append, List.mem_cons, or_assoc] at hb
    rcases hb with h | h | h | h
    · exact nlGap_lt i d b h
    · exact bytesLT_val i d x (by
        rw [jsonOKL_cons, Bool.and_eq_true] at hok
        exact hok.1) b h
    · omega
    · exact bytesLT_elems i d (y :: r) (by
        rw [jsonOKL_cons, Bool.and_eq_true] at hok
        exact hok.2) b h

theorem bytesLT_fields : ∀ (i : Bool) (d : Nat) (fs : List (List Nat × Json)),
    jsonOKF fs = true → ∀ b ∈ sFields i d fs, b < 256
  | i, d, [], _ => by
    intro b hb
    simp [sFields] at hb
  | i, d, [(k, v)], hok => by
    intro b hb
    have hks : bytesOK k = true ∧ jsonOK v = true := by
      rw [jsonOKF_cons] at hok
      simp only [Bool.and_eq_true] at hok
      exact ⟨hok.1.1.1, hok.1.2⟩
    simp only [sFields, List.mem_append, List.mem_cons, or_assoc] at hb
    rcases hb with h | h | h | h | h | h
    · exact nlGap_lt i d b h
    · omega
    · exact escString_lt k hks.1 b h
    · omega
    · exact colGap_lt i b h
    · exact bytesLT_val i d v hks.2 b h
  | i, d, (k, v) :: g :: r, hok => by
    intro b hb
    have hks : bytesOK k = true ∧ jsonOK v = true ∧ jsonOKF (g :: r) = true := by
      rw [jsonOKF_cons] at hok
      simp only [Bool.and_eq_true] at hok
      exact ⟨hok.1.1.1, hok.1.2, hok.2⟩
    simp only [sFields, List.mem_append, List.mem_cons, or_assoc] at hb
    rcases hb with h | h | h | h | h | h | h | h
    · exact nlGap_lt i d b h
    · omega
    · exact escString_lt k hks.1 b h
    · omega
    · exact colGap_lt i b h
    · exact bytesLT_val i d v hks.2.1 b h
    · omega
    · exact bytesLT_fields i d (g :: r) hks.2.2 b h

end

/-! ### Token segments never contain a dot -/

theorem mem_nodeBase64_any : ∀ (x : List Nat) (c : Nat), c ∈ nodeBase64 x →
    c = 61 ∨ ∃ n, c = encB64 n
  | [], c => by simp [nodeBase64]
  | [b1], c => by
    intro hc
    simp only [nodeBase64, List.mem_cons, List.not_mem_nil, or_false] at hc
    rcases hc with rfl | rfl | rfl | rfl
    · exact Or.inr ⟨_, rfl⟩
    · exact Or.inr ⟨_, rfl⟩
    · exact Or.inl rfl
    · exact Or.inl rfl
  | [b1, b2], c => by
    intro hc
    simp only [nodeBase64, List.mem_cons, List.not_mem_nil, or_false] at hc
    rcases hc with rfl | rfl | rfl | rfl
    · exact Or.inr ⟨_, rfl⟩
    · exact Or.inr ⟨_, rfl⟩
    · exact Or.inr ⟨_, rfl⟩
    · exact Or.inl rfl
  | b1 :: b2 :: b3 :: r, c => by
    intro hc
    simp only [nodeBase64, List.mem_cons] at hc
    rcases hc with rfl | rfl | rfl | rfl | hc
    · exact Or.inr ⟨_, rfl⟩
    · exact Or.inr ⟨_, rfl⟩
    · exact Or.inr ⟨_, rfl⟩
    · exact Or.inr ⟨_, rfl⟩
    · exact mem_nodeBase64_any r c hc

theorem b64url_dotfree (s : List Nat) : ∀ b ∈ base64urlEncode s, b ≠ 46 := by
  intro b hb
  simp only [base64urlEncode, List.mem_map] at hb
  obtain ⟨c, hc, rfl⟩ := hb
  rw [List.mem_filter] at hc
  rcases mem_nodeBase64_any s c hc.1 with h61 | ⟨n, rfl⟩
  · subst h61
    simp at hc
  · exact url_b64_ne_46 n

/-! ### `jsonOK` is preserved by property assignment -/

theorem keyNotIn_objSet (l : List Nat) (r : List (List Nat × Json)) (k : List Nat) (v : Json)
    (h : keyNotIn l r = true) (hlk : ¬ l = k) : keyNotIn l (objSet r k v) = true := by
  induction r with
  | nil => simp [objSet, keyNotIn, hlk]
  | cons p r2 ih =>
    obtain ⟨a, b⟩ := p
    simp only [keyNotIn] at h
    by_cases hla : l = a
    · rw [if_pos hla] at h
      exact absurd h (by simp)
    · rw [if_neg hla] at h
      by_cases hak : a = k
      · subst hak
        simp [objSet, keyNotIn, hla, h]
      · simp [objSet, keyNotIn, hak, hla, ih h]

theorem jsonOKF_objSet (o : List (List Nat × Json)) (k : List Nat) (v : Json)
    (ho : jsonOKF o = true) (hk : bytesOK k = true) (hv : jsonOK v = true) :
    jsonOKF (objSet o k v) = true := by
  induction o with
  | nil => simp [objSet, jsonOKF, keyNotIn, hk, hv]
  | cons p r ih =>
    obtain ⟨a, b⟩ := p
    rw [jsonOKF_cons] at ho
    simp only [Bool.and_eq_true] at ho
    by_cases hak : a = k
    · subst hak
      have hset : objSet ((a, b) :: r) a v = (a, v) :: r := by
        simp [objSet]
      rw [hset, jsonOKF_cons]
      simp [ho.1.1.1, ho.1.1.2, hv, ho.2]
    · have hset : objSet ((a, b) :: r) k v = (a, b) :: objSet r k v := by
        simp [objSet, hak]
      rw [hset, jsonOKF_cons]
      have hknew : keyNotIn a (objSet r k v) = true :=
        keyNotIn_objSet a r k v ho.1.1.2 (fun e => hak e)
      simp [ho.1.1.1, hknew, ho.1.2, ih ho.2]

theorem jsonOK_of_objGet (o : List (List Nat × Json)) (k : List Nat) (v : Json)
    (ho : jsonOKF o = true) (hg : objGet o k = some v) : jsonOK v = true := by
  induction o with
  | nil => simp [objGet] at hg
  | cons p r ih =>
    obtain ⟨a, b⟩ := p
    rw [jsonOKF_cons] at ho
    simp only [Bool.and_eq_true] at ho
    simp only [objGet] at hg
    by_cases hak : a = k
    · rw [if_pos hak] at hg
      obtain rfl : b = v := by simpa using hg
      exact ho.1.2
    · rw [if_neg hak] at hg
      exact ih ho.2 hg

/-! ### The expiry value chosen at issuance -/

/-- The input claim map supplies `exp` as a number or not at all (the shape
§4.1 of the spec prescribes for the claim map). -/
def expNumOK (payload : List (List Nat × Json)) : Bool :=
  match objGet payload (asc "exp") with
  | some (.num _) => true
  | some _ => false
  | none => true

/-- The numeric expiry `generateToken` stores: a nonzero supplied `exp`, or
`issuedAt + 3600`. -/
def expiryNumOf (payload : List (List Nat × Json)) (issuedAt : Nat) : Int :=
  match objGet payload (asc "exp") with
  | some (.num e) => if e ≠ 0 then e else (issuedAt : Int) + 3600
  | _ => (issuedAt : Int) + 3600

theorem expiryJson_num (c : List (List Nat × Json)) (iat : Nat) (h : expNumOK c = true) :
    expiryJson c iat = .num (expiryNumOf c iat) := by
  rcases hg : objGet c (asc "exp") with _ | v
  · simp [expiryJson, expiryNumOf, hg]
  · cases v with
    | num e =>
      by_cases he : e = 0
      · simp [expiryJson, expiryNumOf, hg, truthy, he]
      · simp [expiryJson, expiryNumOf, hg, truthy, he]
    | null => simp [expNumOK, hg] at h
    | bool b => simp [expNumOK, hg] at h
    | str s => simp [expNumOK, hg] at h
    | arr l => simp [expNumOK, hg] at h
    | obj fs => simp [expNumOK, hg] at h

theorem expiryNumOf_ne_zero (c : List (List Nat × Json)) (iat : Nat) :
    expiryNumOf c iat ≠ 0 := by
  rcases hg : objGet c (asc "exp") with _ | v
  · simp only [expiryNumOf, hg]
    omega
  · cases v with
    | num e =>
      by_cases he : e = 0
      · simp only [expiryNumOf, hg, he]
        simp
        omega
      · simp only [expiryNumOf, hg, if_pos he, reduceIte]
        simp [he]
    | null =>
      simp only [expiryNumOf, hg]
      omega
    | bool b =>
      simp only [expiryNumOf, hg]
      omega
    | str s2 =>
      simp only [expiryNumOf, hg]
      omega
    | arr l =>
      simp only [expiryNumOf, hg]
      omega
    | obj fs =>
      simp only [expiryNumOf, hg]
      omega

/-! ### Characterization of successful verification -/

theorem verifyToken_some_iff (secret : List Nat) (nowMs : Nat) (t : List Nat) (m : Json) :
    verifyToken secret nowMs t = some m ↔
      ∃ h p sg, splitDot t = [h, p, sg]
        ∧ base64urlEncode (hmacSha256 secret (h ++ 46 :: p)) = sg
        ∧ parseJson (base64urlDecode p) = some m
        ∧ m ≠ Json.null
        ∧ ∀ v, jsGet m (asc "exp") = some v →
            truthy v = false ∨ jsGtNum ((nowMs / 1000 : Nat) : Int) v = false := by
  constructor
  · intro hv
    rcases hsp : splitDot t with _ | ⟨h1, tl1⟩
    · rw [verifyToken.eq_def, hsp] at hv
      simp at hv
    rcases tl1 with _ | ⟨h2, tl2⟩
    · rw [verifyToken.eq_def, hsp] at hv
      simp at hv
    rcases tl2 with _ | ⟨h3, tl3⟩
    · rw [verifyToken.eq_def, hsp] at hv
      simp at hv
    rcases tl3 with _ | ⟨h4, tl4⟩
    case cons.cons.cons.cons =>
      rw [verifyToken.eq_def, hsp] at hv
      simp at hv
    rw [verifyToken.eq_def, hsp] at hv
    by_cases hsig : base64urlEncode (hmacSha256 secret (h1 ++ 46 :: h2)) = h3
    · rcases hp : parseJson (base64urlDecode h2) with _ | payload
      · simp only [hsig, reduceIte, hp] at hv
        exact absurd hv (by simp)
      by_cases hnull : payload = Json.null
      · simp only [hsig, reduceIte, hp, hnull] at hv
        exact absurd hv (by simp)
      rcases hexp : jsGet payload (asc "exp") with _ | v
      · simp only [hsig, reduceIte, hp, if_neg hnull, hexp] at hv
        obtain rfl : payload = m := by simpa using hv
        exact ⟨h1, h2, h3, rfl, hsig, hp, hnull, fun v hgv => by simp [hexp] at hgv⟩
      · cases hcb : (truthy v && jsGtNum ((nowMs / 1000 : Nat) : Int) v) with
        | true =>
          simp only [hsig, reduceIte, hp, if_neg hnull, hexp, hcb] at hv
          exact absurd hv (by simp)
        | false =>
          simp only [hsig, reduceIte, hp, if_neg hnull, hexp, hcb] at hv
          obtain rfl : payload = m := by simpa using hv
          refine ⟨h1, h2, h3, rfl, hsig, hp, hnull, fun v2 hgv => ?_⟩
          obtain rfl : v = v2 := by
            rw [hexp] at hgv
            simpa using hgv
          cases htv : truthy v with
          | false => exact Or.inl rfl
          | true =>
            refine Or.inr ?_
            rw [htv, Bool.true_and] at hcb
            exact hcb
    · simp only [reduceIte, if_neg hsig] at hv
      exact absurd hv (by simp)
  · rintro ⟨h1, p, sg, hsp, hsig, hparse, hnull, hcond⟩
    rw [verifyToken.eq_def, hsp]
    rcases hexp : jsGet m (asc "exp") with _ | v
    · simp only [hsig, reduceIte, hparse, if_neg hnull, hexp]
    · have hfalse : (truthy v && jsGtNum ((nowMs / 1000 : Nat) : Int) v) = false := by
        rcases hcond v hexp with h | h
        · rw [h, Bool.false_and]
        · rw [h, Bool.and_false]
      simp only [hsig, reduceIte, hparse, if_neg hnull, hexp, hfalse]
      simp

/-- Build an accepted token from dot-free header and payload segments and
the matching signature. -/
theorem verifyToken_build (secret : List Nat) (nowMs : Nat) (m : Json) (h p : List Nat)
    (hdfh : ∀ b ∈ h, b ≠ 46) (hdfp : ∀ b ∈ p, b ≠ 46)
    (hparse : parseJson (base64urlDecode p) = some m)
    (hnull : m ≠ Json.null)
    (hcond : ∀ v, jsGet m (asc "exp") = some v →
        truthy v = false ∨ jsGtNum ((nowMs / 1000 : Nat) : Int) v = false) :
    verifyToken secret nowMs
      (h ++ 46 :: (p ++ 46 :: base64urlEncode (hmacSha256 secret (h ++ 46 :: p))))
      = some m := by
  rw [verifyToken_some_iff]
  exact ⟨h, p, _, splitDot_three h p _ hdfh hdfp (b64url_dotfree _), rfl, hparse, hnull, hcond⟩

/-! ### Facts about the issued payload -/

theorem iat_ne_exp : asc "iat" ≠ asc "exp" := by decide

theorem tokenPayloadOf_exp (c : List (List Nat × Json)) (iat : Nat) :
    objGet (tokenPayloadOf c iat) (asc "exp") = some (expiryJson c iat) := by
  simp only [tokenPayloadOf]
  exact objGet_objSet_self _ _ _

theorem tokenPayloadOf_iat (c : List (List Nat × Json)) (iat : Nat) :
    objGet (tokenPayloadOf c iat) (asc "iat") = some (.num (iat : Int)) := by
  simp only [tokenPayloadOf]
  rw [objGet_objSet_other _ _ _ _ iat_ne_exp]
  exact objGet_objSet_self _ _ _

theorem tokenPayloadOf_other (c : List (List Nat × Json)) (iat : Nat) (k : List Nat)
    (h1 : k ≠ asc "iat") (h2 : k ≠ asc "exp") :
    objGet (tokenPayloadOf c iat) k = objGet c k := by
  simp only [tokenPayloadOf]
  rw [objGet_objSet_other _ _ _ _ h2, objGet_objSet_other _ _ _ _ h1]

theorem tokenPayloadOf_ok (c : List (List Nat × Json)) (iat : Nat)
    (hok : jsonOKF c = true) (hexp : expNumOK c = true) :
    jsonOKF (tokenPayloadOf c iat) = true := by
  simp only [tokenPayloadOf]
  refine jsonOKF_objSet _ _ _ ?_ (by decide) ?_
  · exact jsonOKF_objSet _ _ _ hok (by decide) rfl
  · rw [expiryJson_num c iat hexp]
    rfl

/-- The token produced by `generateToken`, segment by segment. -/
theorem generateToken_shape (secret : List Nat) (nowMs : Nat)
    (c : List (List Nat × Json)) :
    generateToken secret nowMs c =
      base64urlEncode (jsonStringify (.obj jwtHeader)) ++ 46 ::
        (base64urlEncode (jsonStringify (.obj (tokenPayloadOf c (nowMs / 1000)))) ++ 46 ::
          base64urlEncode (hmacSha256 secret
            (base64urlEncode (jsonStringify (.obj jwtHeader)) ++ 46 ::
              base64urlEncode (jsonStringify (.obj (tokenPayloadOf c (nowMs / 1000))))))) := by
  simp [generateToken, List.append_assoc]

/-! ### Claim theorems -/

/-- C1: for every claim map `c` (unique keys, byte-clean strings, and an
`exp` claim that is a number when present) and every secret, verifying the
token issued from `c` with the same secret succeeds — provided the token
expiry has not elapsed at verification time — and returns exactly `c` plus
the injected `iat` (issuedAt) and `exp` (expiry) claims: `iat` is the issue
time in seconds, `exp` is the chosen expiry, and every other claim is
returned unchanged. -/
theorem verify_issue_roundtrip (secret : List Nat) (c : List (List Nat × Json))
    (issueMs verifyMs : Nat)
    (hok : jsonOKF c = true)
    (hexp : expNumOK c = true)
    (hfresh : ((verifyMs / 1000 : Nat) : Int) ≤ expiryNumOf c (issueMs / 1000)) :
    verifyToken secret verifyMs (generateToken secret issueMs c)
      = some (.obj (tokenPayloadOf c (issueMs / 1000)))
    ∧ objGet (tokenPayloadOf c (issueMs / 1000)) (asc "iat")
        = some (.num ((issueMs / 1000 : Nat) : Int))
    ∧ objGet (tokenPayloadOf c (issueMs / 1000)) (asc "exp")
        = some (.num (expiryNumOf c (issueMs / 1000)))
    ∧ ∀ k, k ≠ asc "iat" → k ≠ asc "exp" →
        objGet (tokenPayloadOf c (issueMs / 1000)) k = objGet c k := by
  have hTP : jsonOKF (tokenPayloadOf c (issueMs / 1000)) = true :=
    tokenPayloadOf_ok _ _ hok hexp
  have hE := expiryJson_num c (issueMs / 1000) hexp
  refine ⟨?_, tokenPayloadOf_iat c _, ?_, fun k h1 h2 => tokenPayloadOf_other c _ k h1 h2⟩
  · rw [generateToken_shape]
    apply verifyToken_build
    · exact b64url_dotfree _
    · exact b64url_dotfree _
    · have hlt : ∀ b ∈ jsonStringify (.obj (tokenPayloadOf c (issueMs / 1000))), b < 256 :=
        bytesLT_val false 0 _ hTP
      rw [base64url_roundtrip _ hlt]
      exact parseJson_stringify _ hTP
    · exact fun hcontra => Json.noConfusion hcontra
    · intro v hgv
      rw [show jsGet (Json.obj (tokenPayloadOf c (issueMs / 1000))) (asc "exp")
        = objGet (tokenPayloadOf c (issueMs / 1000)) (asc "exp") from rfl,
        tokenPayloadOf_exp, hE] at hgv
      obtain rfl : v = Json.num (expiryNumOf c (issueMs / 1000)) := by
        simpa using hgv.symm
      refine Or.inr ?_
      simp only [jsGtNum, jsToNum, decide_eq_false_iff_not]
      omega
  · rw [tokenPayloadOf_exp, hE]

/-- Witness for C1 at a concrete claim map, secret and times. -/
theorem verify_issue_roundtrip_witness :
    jsonOKF [(asc "username", Json.str (asc "alice"))] = true
    ∧ expNumOK [(asc "username", Json.str (asc "alice"))] = true
    ∧ ((1700000001000 / 1000 : Nat) : Int)
        ≤ expiryNumOf [(asc "username", Json.str (asc "alice"))] (1700000000000 / 1000)
    ∧ (verifyToken (asc "change_this_secret") 1700000001000
          (generateToken (asc "change_this_secret") 1700000000000
            [(asc "username", Json.str (asc "alice"))])
        = some (.obj (tokenPayloadOf [(asc "username", Json.str (asc "alice"))]
            (1700000000000 / 1000)))
      ∧ objGet (tokenPayloadOf [(asc "username", Json.str (asc "alice"))]
            (1700000000000 / 1000)) (asc "iat")
          = some (.num ((1700000000000 / 1000 : Nat) : Int))
      ∧ objGet (tokenPayloadOf [(asc "username", Json.str (asc "alice"))]
            (1700000000000 / 1000)) (asc "exp")
          = some (.num (expiryNumOf [(asc "username", Json.str (asc "alice"))]
              (1700000000000 / 1000)))
      ∧ ∀ k, k ≠ asc "iat" → k ≠ asc "exp" →
          objGet (tokenPayloadOf [(asc "username", Json.str (asc "alice"))]
              (1700000000000 / 1000)) k
            = objGet [(asc "username", Json.str (asc "alice"))] k) :=
  ⟨by decide, by decide, by decide,
    verify_issue_roundtrip (asc "change_this_secret")
      [(asc "username", Json.str (asc "alice"))] 1700000000000 1700000001000
      (by decide) (by decide) (by decide)⟩

/-- Helper: a correctly signed token whose payload carries a falsy `exp`
claim is accepted at every verification time (the check
`payload.exp && now > payload.exp` short-circuits). -/
theorem verify_falsy_exp (secret t h p sg : List Nat) (m v : Json)
    (h1 : splitDot t = [h, p, sg])
    (h2 : base64urlEncode (hmacSha256 secret (h ++ 46 :: p)) = sg)
    (h3 : parseJson (base64urlDecode p) = some m)
    (h4 : m ≠ Json.null)
    (h5 : jsGet m (asc "exp") = some v)
    (h6 : truthy v = false) :
    ∀ nowMs : Nat, verifyToken secret nowMs t = some m := by
  intro nowMs
  rw [verifyToken_some_iff]
  refine ⟨h, p, sg, h1, h2, h3, h4, fun v2 hgv => ?_⟩
  obtain rfl : v = v2 := by
    rw [h5] at hgv
    simpa using hgv
  exact Or.inl h6

/-! A concrete signed token whose payload is the object with the single
claim `exp: 0`, used to exhibit the falsy-expiry behaviour. -/

def exp0Payload : Json := .obj [(asc "exp", .num 0)]

def exp0HSeg : List Nat := base64urlEncode (jsonStringify (.obj jwtHeader))

def exp0PSeg : List Nat := base64urlEncode (jsonStringify exp0Payload)

def exp0Sig : List Nat :=
  base64urlEncode (hmacSha256 (asc "change_this_secret") (exp0HSeg ++ 46 :: exp0PSeg))

def exp0Token : List Nat := exp0HSeg ++ 46 :: (exp0PSeg ++ 46 :: exp0Sig)

theorem exp0_split : splitDot exp0Token = [exp0HSeg, exp0PSeg, exp0Sig] :=
  splitDot_three _ _ _ (b64url_dotfree _) (b64url_dotfree _) (b64url_dotfree _)

theorem exp0_parse : parseJson (base64urlDecode exp0PSeg) = some exp0Payload := by
  have hok : jsonOK exp0Payload = true := by decide
  have hlt : ∀ b ∈ jsonStringify exp0Payload, b < 256 := bytesLT_val false 0 _ hok
  rw [show exp0PSeg = base64urlEncode (jsonStringify exp0Payload) from rfl]
  rw [base64url_roundtrip _ hlt]
  exact parseJson_stringify _ hok

theorem exp0_accepted : ∀ nowMs : Nat,
    verifyToken (asc "change_this_secret") nowMs exp0Token = some exp0Payload :=
  verify_falsy_exp (asc "change_this_secret") exp0Token exp0HSeg exp0PSeg exp0Sig
    exp0Payload (Json.num 0) exp0_split rfl exp0_parse (by decide) (by decide) (by decide)

/-- C2 (counterexample to the claim as stated): the token `exp0Token` is
well signed, its middle segment decodes to the valid JSON object with the
claim `exp: 0`, and at time 7 200 000 ms the current time exceeds that
expiry — so condition (d) of the claim demands the invalid result — yet
verification succeeds and returns the claim map. -/
theorem verify_expiry_condition_cex :
    verifyToken (asc "change_this_secret") 7200000 exp0Token = some exp0Payload
    ∧ jsGet exp0Payload (asc "exp") = some (Json.num 0)
    ∧ ¬ (((7200000 / 1000 : Nat) : Int) ≤ 0) :=
  ⟨exp0_accepted 7200000, by decide, by decide⟩

/-- C2 (amended): verification returns a claim map `m` exactly when (a) the
input splits into three dot-separated segments, (b) the URL-safe base64 of
the HMAC-SHA256 over the first two segments matches the third byte for
byte, (c) the middle segment decodes to valid JSON other than `null` (a
`null` payload throws on property access and is folded into invalid), and
(d) the payload's `exp` claim is absent, falsy, or the JS comparison
`now > exp` does not hold.  Every failing input yields the one invalid
result `none`. -/
theorem verify_success_characterization (secret : List Nat) (nowMs : Nat)
    (t : List Nat) (m : Json) :
    verifyToken secret nowMs t = some m ↔
      ∃ h p sg, splitDot t = [h, p, sg]
        ∧ base64urlEncode (hmacSha256 secret (h ++ 46 :: p)) = sg
        ∧ parseJson (base64urlDecode p) = some m
        ∧ m ≠ Json.null
        ∧ ∀ v, jsGet m (asc "exp") = some v →
            truthy v = false ∨ jsGtNum ((nowMs / 1000 : Nat) : Int) v = false :=
  verifyToken_some_iff secret nowMs t m

/-- C3: token verification is a total function into an option type: for
every input it returns either a claim map or the single invalid sentinel
`none`; in the model every exception path of the source (malformed base64
handled by the lenient decoder, bad padding, a non-JSON payload, property
access on `null`) is a `none`-returning branch, so no exception escapes. -/
theorem verify_total : ∀ (secret : List Nat) (nowMs : Nat) (t : List Nat),
    verifyToken secret nowMs t = none ∨ ∃ m, verifyToken secret nowMs t = some m := by
  intro secret nowMs t
  rcases h : verifyToken secret nowMs t with _ | m
  · exact Or.inl rfl
  · exact Or.inr ⟨m, rfl⟩

/-- C10 (implicit behaviour, confirmed): the expiry check is skipped
whenever the decoded payload's `exp` claim is falsy (0, null, false or the
empty string), so a correctly signed token with such a payload is accepted
at every point in time and never expires. -/
theorem falsy_exp_never_expires (secret t h p sg : List Nat) (m v : Json)
    (h1 : splitDot t = [h, p, sg])
    (h2 : base64urlEncode (hmacSha256 secret (h ++ 46 :: p)) = sg)
    (h3 : parseJson (base64urlDecode p) = some m)
    (h4 : m ≠ Json.null)
    (h5 : jsGet m (asc "exp") = some v)
    (h6 : truthy v = false) :
    ∀ nowMs : Nat, verifyToken secret nowMs t = some m :=
  verify_falsy_exp secret t h p sg m v h1 h2 h3 h4 h5 h6

/-- Witness for C10: the signed `exp: 0` token is accepted both at time 0
and far in the future. -/
theorem falsy_exp_never_expires_witness :
    splitDot exp0Token = [exp0HSeg, exp0PSeg, exp0Sig]
    ∧ jsGet exp0Payload (asc "exp") = some (Json.num 0)
    ∧ truthy (Json.num 0) = false
    ∧ verifyToken (asc "change_this_secret") 0 exp0Token = some exp0Payload
    ∧ verifyToken (asc "change_this_secret") 99999999999999 exp0Token = some exp0Payload :=
  ⟨exp0_split, by decide, by decide,
    falsy_exp_never_expires (asc "change_this_secret") exp0Token exp0HSeg exp0PSeg exp0Sig
      exp0Payload (Json.num 0) exp0_split rfl exp0_parse (by decide) (by decide) (by decide) 0,
    falsy_exp_never_expires (asc "change_this_secret") exp0Token exp0HSeg exp0PSeg exp0Sig
      exp0Payload (Json.num 0) exp0_split rfl exp0_parse (by decide) (by decide) (by decide)
      99999999999999⟩

/-- C4 (counterexample to the claim as stated): the claim map with the
single claim `exp: 0` has an `exp` claim present, yet the issued payload's
expiry is the default `issuedAt + 3600`, not the supplied value 0. -/
theorem exp_zero_default_cex :
    objGet (tokenPayloadOf [(asc "exp", Json.num 0)] 0) (asc "exp") = some (Json.num 3600)
    ∧ Json.num 3600 ≠ Json.num 0 := by
  constructor
  · rw [tokenPayloadOf_exp]
    decide
  · decide

/-- C4 (amended): a truthy `exp` claim in the input overrides the default,
the issued expiry being exactly the supplied value; an absent or falsy
`exp` claim (such as 0) yields the default expiry issuance-time + 3600. -/
theorem exp_override_truthy (c : List (List Nat × Json)) (issueMs : Nat) :
    (∀ v, objGet c (asc "exp") = some v → truthy v = true →
        objGet (tokenPayloadOf c (issueMs / 1000)) (asc "exp") = some v)
    ∧ ((objGet c (asc "exp") = none ∨
          ∃ v, objGet c (asc "exp") = some v ∧ truthy v = false) →
        objGet (tokenPayloadOf c (issueMs / 1000)) (asc "exp")
          = some (.num (((issueMs / 1000 : Nat) : Int) + 3600))) := by
  constructor
  · intro v hv htv
    rw [tokenPayloadOf_exp]
    simp [expiryJson, hv, htv]
  · intro hcase
    rw [tokenPayloadOf_exp]
    rcases hcase with hnone | ⟨v, hv, htv⟩
    · simp [expiryJson, hnone]
    · simp [expiryJson, hv, htv]

/-- Witness for C4 at concrete claim maps: a truthy `exp: 99` is preserved;
an absent `exp` gets the default. -/
theorem exp_override_truthy_witness :
    (objGet [(asc "exp", Json.num 99)] (asc "exp") = some (Json.num 99)
      ∧ truthy (Json.num 99) = true
      ∧ objGet (tokenPayloadOf [(asc "exp", Json.num 99)] (0 / 1000)) (asc "exp")
          = some (Json.num 99))
    ∧ (objGet ([] : List (List Nat × Json)) (asc "exp") = none
      ∧ objGet (tokenPayloadOf ([] : List (List Nat × Json)) (0 / 1000)) (asc "exp")
          = some (.num (((0 / 1000 : Nat) : Int) + 3600))) :=
  ⟨⟨by decide, by decide, (exp_override_truthy [(asc "exp", Json.num 99)] 0).1 _ rfl rfl⟩,
   ⟨rfl, (exp_override_truthy [] 0).2 (Or.inl rfl)⟩⟩

/-! ### Record store claims -/

/-- Helper: writing a collection and reading it back recovers it. -/
theorem getServices_save (R : List Json) (h : jsonOK (.arr R) = true) :
    getServices (some (saveServices R)) = .arr R := by
  simp only [getServices, saveServices]
  rw [parseJson_stringify2 _ h]

theorem getUsers_save (U : List Json) (h : jsonOK (.arr U) = true) :
    getUsers (some (saveUsers U)) = .arr U := by
  simp only [getUsers, saveUsers]
  rw [parseJson_stringify2 _ h]

/-- C6: for every finite sequence of records `R` (well-formed: unique keys
and byte-clean strings, which every actual JS object graph satisfies),
loading the collection immediately after replacing it with `R` returns a
sequence equal to `R`, order preserved. -/
theorem store_roundtrip (R : List Json) (h : jsonOK (.arr R) = true) :
    getServices (some (saveServices R)) = .arr R :=
  getServices_save R h

/-- Witness for C6 at a concrete two-record sequence, order preserved. -/
theorem store_roundtrip_witness :
    jsonOK (.arr [.obj [(asc "service", Json.str (asc "Clean"))],
      .obj [(asc "id", Json.num 7)]]) = true
    ∧ getServices (some (saveServices [.obj [(asc "service", Json.str (asc "Clean"))],
        .obj [(asc "id", Json.num 7)]]))
      = .arr [.obj [(asc "service", Json.str (asc "Clean"))], .obj [(asc "id", Json.num 7)]] :=
  ⟨by decide,
    store_roundtrip [.obj [(asc "service", Json.str (asc "Clean"))],
      .obj [(asc "id", Json.num 7)]] (by decide)⟩

/-- C7: loading a collection whose backing file is missing or unreadable
(the read throws) or whose content is not valid JSON returns the empty
sequence; the model is a total function, so no error reaches the caller. -/
theorem tolerant_read :
    getServices none = .arr []
    ∧ ∀ d : List Nat, parseJson d = none → getServices (some d) = .arr [] := by
  constructor
  · rfl
  · intro d h
    simp [getServices, h]

/-- Witness for C7 on a concrete non-JSON file content. -/
theorem tolerant_read_witness :
    parseJson (asc "oops") = none ∧ getServices (some (asc "oops")) = .arr [] :=
  ⟨by decide, tolerant_read.2 _ (by decide)⟩

/-- C8: registering a username already present in the users collection
answers 409, a conflict outcome distinct from the 400 used for parse
failures and from the 201 success, and leaves the backing file exactly as
it was — no write is performed. -/
theorem duplicate_register_conflict (reqBody : List Nat) (file : Option (List Nat))
    (b uv pv : Json) (users : List Json)
    (h1 : parseJson reqBody = some b) (h2 : b ≠ Json.null)
    (h3 : jsGet b (asc "username") = some uv)
    (h4 : jsGet b (asc "password") = some pv)
    (h5 : truthy uv = true) (h6 : truthy pv = true)
    (h7 : getUsers file = .arr users)
    (h8 : someUsernameEq users uv = some true) :
    register reqBody file = ⟨409, file, none⟩
    ∧ (409 : Nat) ≠ 400 ∧ (409 : Nat) ≠ 201 := by
  refine ⟨?_, by decide, by decide⟩
  simp only [register, h1, h2, h3, h4, h5, h6, h7, h8, Bool.and_self, if_true, if_false,
    reduceIte]

def c8user : Json := .obj [(asc "username", Json.str (asc "alice")),
  (asc "passwordHash", Json.str (asc "h"))]

def c8req : Json := .obj [(asc "username", Json.str (asc "alice")),
  (asc "password", Json.str (asc "pw1"))]

def c8body : List Nat := jsonStringify c8req

def c8file : Option (List Nat) := some (saveUsers [c8user])

/-- Witness for C8: registering `alice` a second time against a store
already holding an `alice` record yields 409 with the file untouched. -/
theorem duplicate_register_conflict_witness :
    parseJson c8body = some c8req
    ∧ getUsers c8file = .arr [c8user]
    ∧ someUsernameEq [c8user] (Json.str (asc "alice")) = some true
    ∧ (register c8body c8file = ⟨409, c8file, none⟩
        ∧ (409 : Nat) ≠ 400 ∧ (409 : Nat) ≠ 201) :=
  ⟨parseJson_stringify _ (by decide), getUsers_save _ (by decide), by decide,
   duplicate_register_conflict c8body c8file c8req (Json.str (asc "alice"))
     (Json.str (asc "pw1")) [c8user]
     (parseJson_stringify _ (by decide)) (by decide) (by decide) (by decide)
     (by decide) (by decide) (getUsers_save _ (by decide)) (by decide)⟩

/-- C9: creating a service stores the body with its `id` overwritten by the
server-chosen `Date.now()` value regardless of any `id` the request
supplied, and updating through `PUT /services/:id` stores the body with its
`id` forced back to the URL id — every other field of the stored record
comes from the update body. -/
theorem service_id_semantics (nowMs idNum : Int) (body1 body2 : List Nat)
    (file1 file2 : Option (List Nat)) (fs gs : List (List Nat × Json))
    (l1 l2 : List Json) (i : Nat)
    (h1 : parseJson body1 = some (.obj fs))
    (h2 : getServices file1 = .arr l1)
    (h3 : parseJson body2 = some (.obj gs))
    (h4 : getServices file2 = .arr l2)
    (h5 : findIdxById l2 idNum = some (some i)) :
    (createService nowMs body1 file1
        = ⟨201, some (saveServices (l1 ++ [.obj (objSet fs (asc "id") (.num nowMs))])),
            some (.obj (objSet fs (asc "id") (.num nowMs)))⟩
      ∧ objGet (objSet fs (asc "id") (.num nowMs)) (asc "id") = some (.num nowMs))
    ∧ (updateService idNum body2 file2
        = ⟨200, some (saveServices (l2.set i (.obj (objSet gs (asc "id") (.num idNum))))),
            some (.obj (objSet gs (asc "id") (.num idNum)))⟩
      ∧ objGet (objSet gs (asc "id") (.num idNum)) (asc "id") = some (.num idNum)
      ∧ ∀ k, k ≠ asc "id" →
          objGet (objSet gs (asc "id") (.num idNum)) k = objGet gs k) := by
  refine ⟨⟨?_, objGet_objSet_self fs (asc "id") (.num nowMs)⟩,
          ?_, objGet_objSet_self gs (asc "id") (.num idNum),
          fun k hk => objGet_objSet_other gs (asc "id") k (.num idNum) hk⟩
  · simp only [createService, h1, jsSetProp, h2]
  · simp only [updateService, h3, h4, h5, jsSetProp]

def c9fs : List (List Nat × Json) := [(asc "service", Json.str (asc "Clean")),
  (asc "date", Json.str (asc "2024-01-01"))]

def c9gs : List (List Nat × Json) := [(asc "service", Json.str (asc "New")),
  (asc "id", Json.num 999)]

def c9l2 : List Json := [Json.obj [(asc "id", Json.num 7),
  (asc "service", Json.str (asc "Old"))]]

/-- Witness for C9: creating `{service:"Clean", date:"2024-01-01"}` at time
1700000000000 stores that id, and updating record 7 with a body carrying
`id: 999` stores `id: 7` with the body's other fields. -/
theorem service_id_semantics_witness :
    parseJson (jsonStringify (.obj c9fs)) = some (.obj c9fs)
    ∧ getServices none = .arr []
    ∧ parseJson (jsonStringify (.obj c9gs)) = some (.obj c9gs)
    ∧ getServices (some (saveServices c9l2)) = .arr c9l2
    ∧ findIdxById c9l2 7 = some (some 0)
    ∧ ((createService 1700000000000 (jsonStringify (.obj c9fs)) none
        = ⟨201, some (saveServices ([] ++ [.obj (objSet c9fs (asc "id") (.num 1700000000000))])),
            some (.obj (objSet c9fs (asc "id") (.num 1700000000000)))⟩
      ∧ objGet (objSet c9fs (asc "id") (.num 1700000000000)) (asc "id")
          = some (.num 1700000000000))
    ∧ (updateService 7 (jsonStringify (.obj c9gs)) (some (saveServices c9l2))
        = ⟨200, some (saveServices (c9l2.set 0 (.obj (objSet c9gs (asc "id") (.num 7))))),
            some (.obj (objSet c9gs (asc "id") (.num 7)))⟩
      ∧ objGet (objSet c9gs (asc "id") (.num 7)) (asc "id") = some (.num 7)
      ∧ ∀ k, k ≠ asc "id" →
          objGet (objSet c9gs (asc "id") (.num 7)) k = objGet c9gs k)) :=
  ⟨parseJson_stringify _ (by decide), rfl, parseJson_stringify _ (by decide),
   getServices_save c9l2 (by decide), by decide,
   service_id_semantics 1700000000000 7 (jsonStringify (.obj c9fs)) (jsonStringify (.obj c9gs))
     none (some (saveServices c9l2)) c9fs c9gs [] c9l2 0
     (parseJson_stringify _ (by decide)) rfl (parseJson_stringify _ (by decide))
     (getServices_save c9l2 (by decide)) (by decide)⟩

end Pool
